import Mathlib

/-!
Verification of the `file_paths` crate (textual path manipulation).

Strings are modelled as `List Char`.  Every definition below is translated
from the crate's source (`src/common.rs`, `src/argumented.rs`, `src/lib.rs`);
the regular expressions used by the crate are small anchored patterns and are
embedded as direct character-class scans with the same matching semantics.
Functions that can panic in Rust (`relative`, the internal indexing in
`remove_empty`) are modelled as `Option`-returning functions, `none` meaning
a panic.
-/

namespace FilePaths

/-- The character class `[/\\]` used by the crate's `PATH_SEPARATOR` regex. -/
def isPathSep (c : Char) : Bool := c = '/' || c = '\\'

/-- `STARTS_WITH_PATH_SEPARATOR` (regex `^[/\\]`) from `lib.rs`. -/
def startsWithPathSeparator (p : List Char) : Bool :=
  match p with
  | [] => false
  | c :: _ => isPathSep c

/-- `PATH_SEPARATOR.split`: split a string on every `/` or `\`.
Splitting the empty string yields one empty piece, as the regex crate does. -/
def splitPath : List Char → List (List Char)
  | [] => [[]]
  | c :: cs =>
    if isPathSep c then [] :: splitPath cs
    else
      match splitPath cs with
      | [] => [[c]]
      | p :: ps => (c :: p) :: ps

/-- One iteration of the accumulator loop in `resolve_one_without_starting_sep`:
`.` is skipped, `..` pops the last entry when present (`r.remove(r.len()-1)`
guarded by `!r.is_empty()`), empty pieces are skipped, anything else is pushed. -/
def normStep (r : List (List Char)) (p : List Char) : List (List Char) :=
  if p = ['.'] then r
  else if p = ['.', '.'] then r.dropLast
  else if p = [] then r
  else r ++ [p]

/-- The whole accumulator loop of `resolve_one_without_starting_sep`. -/
def normSegs (ps : List (List Char)) : List (List Char) :=
  ps.foldl normStep []

/-- `Vec::join("/")` on the accumulator. -/
def joinSegs : List (List Char) → List Char
  | [] => []
  | [p] => p
  | p :: ps => p ++ '/' :: joinSegs ps

/-- `common::resolve_one_without_starting_sep`. -/
def resolve_one_without_starting_sep (path : List Char) : List Char :=
  joinSegs (normSegs (splitPath path))

/-- `common::resolve_one`. -/
def common_resolve_one (path : List Char) : List Char :=
  let r := resolve_one_without_starting_sep path
  if startsWithPathSeparator path then '/' :: r else r

/-- `common::resolve`. -/
def common_resolve (path1 path2 : List Char) : List Char :=
  if startsWithPathSeparator path2 then common_resolve_one path2
  else
    let r :=
      if path2 = [] then resolve_one_without_starting_sep path1
      else resolve_one_without_starting_sep
        (resolve_one_without_starting_sep path1 ++ '/' :: path2)
    if startsWithPathSeparator path1 then '/' :: r else r

/-- `common::resolve_n`. -/
def common_resolve_n (paths : List (List Char)) : List Char :=
  match paths with
  | [] => []
  | [p] => common_resolve_one p
  | p1 :: p2 :: rest => rest.foldl common_resolve (common_resolve p1 p2)

/-- Rust's `char::is_whitespace` (the Unicode `White_Space` property),
used by `str::trim_start` in `common::relative`. -/
def isRustWhitespace (c : Char) : Bool :=
  c.val = 0x09 || c.val = 0x0A || c.val = 0x0B || c.val = 0x0C || c.val = 0x0D ||
  c.val = 0x20 || c.val = 0x85 || c.val = 0xA0 || c.val = 0x1680 ||
  (0x2000 ≤ c.val && c.val ≤ 0x200A) ||
  c.val = 0x2028 || c.val = 0x2029 || c.val = 0x202F || c.val = 0x205F ||
  c.val = 0x3000

/-- `str::trim_start`. -/
def rustTrimStart (p : List Char) : List Char :=
  p.dropWhile isRustWhitespace

/-- The inner `remove_empty` helper of `common::relative`: it indexes
`parts[1]` (a panic when fewer than two pieces exist, modelled as `none`)
and removes that piece when it is empty. -/
def removeSecondIfEmpty? (parts : List (List Char)) : Option (List (List Char)) :=
  match parts with
  | a :: b :: rest => some (if b = [] then a :: rest else a :: b :: rest)
  | _ => none

/-- The length of the longest common leading run of identical pieces
(the `common_indices` loop of `common::relative`). -/
def commonRunLen : List (List Char) → List (List Char) → Nat
  | a :: as_, b :: bs => if a = b then commonRunLen as_ bs + 1 else 0
  | _, _ => 0

/-- The removal loop of `common::relative`: for `i` over the reversed
common-index list `[0, …, k-1]` it erases index `common_indices[i] = i`. -/
def eraseDescending (parts : List (List Char)) (k : Nat) : List (List Char) :=
  ((List.range k).reverse).foldl (fun l j => l.eraseIdx j) parts

/-- `common::relative`; `none` models the panic of the absoluteness
assertion (or of the out-of-bounds indexing inside `remove_empty`). -/
def common_relative? (from_path to_path : List Char) : Option (List Char) :=
  if startsWithPathSeparator from_path && startsWithPathSeparator to_path then
    match removeSecondIfEmpty? (splitPath (common_resolve_one from_path)),
          removeSecondIfEmpty? (splitPath (common_resolve_one to_path)) with
    | some fromParts, some toParts =>
      let k := commonRunLen fromParts toParts
      let fromParts' := eraseDescending fromParts k
      let toParts' := eraseDescending toParts k
      let r := joinSegs (List.replicate fromParts'.length ['.', '.'] ++ toParts')
      let r := rustTrimStart r
      some (if r.getLast? = some '/' then r.dropLast else r)
    | _, _ => none
  else none

/-- `argumented::PlatformPathVariant` (in `lib.rs` the same two variants are
named `Common` and `Windows`). -/
inductive PlatformPathVariant where
  | Default
  | Windows
deriving DecidableEq, Repr

/-- `[A-Za-z]`. -/
def isAsciiAlpha (c : Char) : Bool :=
  ('A' ≤ c && c ≤ 'Z') || ('a' ≤ c && c ≤ 'z')

/-- The anchored match of `STARTS_WITH_WINDOWS_PATH_PREFIX`
(`^((\\\\)|([A-Za-z]:))`), returning the matched text. -/
def winPre? (p : List Char) : Option (List Char) :=
  match p with
  | c :: d :: _ =>
    if c = '\\' && d = '\\' then some ['\\', '\\']
    else if isAsciiAlpha c && d = ':' then some [c, ':']
    else none
  | _ => none

/-- The anchored match of `STARTS_WITH_WINDOWS_PATH_PREFIX_OR_SLASH`
(`^((\\\\)|([A-Za-z]:)|[/\\]([^\\]|$))`), returning the matched text.
Alternatives are tried in order, as the regex crate does. -/
def winPreOrSlash? (p : List Char) : Option (List Char) :=
  match p with
  | [] => none
  | [c] => if isPathSep c then some [c] else none
  | c :: d :: _ =>
    if c = '\\' && d = '\\' then some ['\\', '\\']
    else if isAsciiAlpha c && d = ':' then some [c, ':']
    else if isPathSep c && d ≠ '\\' then some [c, d]
    else none

/-- `STARTS_WITH_WINDOWS_PATH_PREFIX.replace(path, "/")`: the first match
(at the start, if any) is replaced by a single `/`. -/
def replaceWinPre (p : List Char) : List Char :=
  match winPre? p with
  | some pre => '/' :: p.drop pre.length
  | none => p

/-- `argumented::is_absolute`. -/
def arg_is_absolute (path : List Char) (v : PlatformPathVariant) : Bool :=
  match v with
  | .Default => startsWithPathSeparator path
  | .Windows => (winPreOrSlash? path).isSome

/-- `argumented::resolve`.  In the Windows branch, `prefixed` keeps the
inputs that match the Windows-prefix regex, the prefix of the *last* of
them is saved, both inputs have their prefix (if any) replaced by `/`,
the generic resolver runs, and the saved prefix is reattached (a UNC
prefix replaces the leading separator of the generic result). -/
def arg_resolve (path1 path2 : List Char) (v : PlatformPathVariant) : List Char :=
  match v with
  | .Default => common_resolve path1 path2
  | .Windows =>
    match ([path1, path2].filter (fun p => (winPre? p).isSome)).getLast? with
    | none => common_resolve path1 path2
    | some lastP =>
      let pre := (winPre? lastP).getD []
      let r := common_resolve (replaceWinPre path1) (replaceWinPre path2)
      if pre = ['\\', '\\'] then '\\' :: '\\' :: r.drop 1
      else pre ++ r

/-- `argumented::resolve_n`. -/
def arg_resolve_n (paths : List (List Char)) (v : PlatformPathVariant) : List Char :=
  match paths with
  | [] => []
  | [p] => arg_resolve p [] v
  | p1 :: p2 :: rest => rest.foldl (fun a b => arg_resolve a b v) (arg_resolve p1 p2 v)

/-- `argumented::resolve_one` (defined as `resolve_n([path])`). -/
def arg_resolve_one (path : List Char) (v : PlatformPathVariant) : List Char :=
  arg_resolve_n [path] v

/-- The prefix-stripping loop of `argumented::relative`: drop the matched
prefix and re-add a leading `/` when the remainder is not separator-led. -/
def stripPreAddSep (p pre : List Char) : List Char :=
  let q := p.drop pre.length
  if startsWithPathSeparator q then q else '/' :: q

/-- `argumented::relative`; `none` models the panic of the absoluteness
assertion. -/
def arg_relative? (from_path to_path : List Char) (v : PlatformPathVariant) :
    Option (List Char) :=
  match v with
  | .Default => common_relative? from_path to_path
  | .Windows =>
    if arg_is_absolute from_path .Windows && arg_is_absolute to_path .Windows then
      match winPreOrSlash? from_path, winPreOrSlash? to_path with
      | some pre0, some pre1 =>
        if pre0 ≠ pre1 then some (arg_resolve_one to_path .Windows)
        else common_relative? (stripPreAddSep from_path pre0)
                              (stripPreAddSep to_path pre0)
      | _, _ => none
    else none

/-! ### The extension helpers of `lib.rs` needed by the claims -/

/-- Continuation of `isExtRun`: inside a `[^.]+` block, a further dot must
open a new group (followed by a non-dot), and the string may end only
inside a block. -/
def extTail : List Char → Bool
  | [] => true
  | ['.'] => false
  | '.' :: c :: rest => if c = '.' then false else extTail rest
  | _ :: rest => extTail rest

/-- Whether a string is matched *in its entirety* by `(\.[^\.]+)+`:
a nonempty sequence of groups, each a dot followed by one or more
non-dot characters. -/
def isExtRun : List Char → Bool
  | '.' :: c :: rest => if c = '.' then false else extTail rest
  | _ => false
/-- The leftmost starting position of a match of `(\.[^\.]+)+$`
(`reg_exp_find!` semantics: the regex engine reports the earliest start
from which the anchored-run pattern matches through to the end). -/
def findRun : List Char → Option Nat
  | [] => if isExtRun [] then some 0 else none
  | c :: rest =>
    if isExtRun (c :: rest) then some 0
    else (findRun rest).map (· + 1)

/-- `(if extension.starts_with('.') { "" } else { "." }) + extension`. -/
def dotExtArg (extension : List Char) : List Char :=
  if extension.head? = some '.' then extension else '.' :: extension

/-- `lib.rs`'s `change_extension`: dot-prefix the extension argument; if
`(\.[^\.]+)+$` does not occur in `path`, append; otherwise replace the
(leftmost, hence longest) trailing run with the extension. -/
def change_extension (path extension : List Char) : List Char :=
  match findRun path with
  | none => path ++ dotExtArg extension
  | some i => path.take i ++ dotExtArg extension

/-! ### The `Path` wrapper of `lib.rs`

`lib.rs` names the two variants `Common` and `Windows` and hands them to the
`argumented` functions; `Common` is the generic (`Default`) behavior.  The
build-time constant `PlatformPathVariant::NATIVE` is modelled as an explicit
parameter. -/

structure Path where
  s : List Char
  v : PlatformPathVariant
deriving DecidableEq, Repr

/-- `Path::new`. -/
def Path.new (path : List Char) (variant : PlatformPathVariant) : Path :=
  ⟨arg_resolve_one path variant, variant⟩

/-- `Path::new_common`. -/
def Path.new_common (path : List Char) : Path :=
  Path.new path .Default

/-- `Path::new_native` (the build's target variant passed explicitly). -/
def Path.new_native (native : PlatformPathVariant) (path : List Char) : Path :=
  Path.new path native

/-- `Path::from_n`. -/
def Path.from_n (paths : List (List Char)) (variant : PlatformPathVariant) : Path :=
  ⟨arg_resolve_n paths variant, variant⟩

/-- `Path::from_n_common`. -/
def Path.from_n_common (paths : List (List Char)) : Path :=
  Path.from_n paths .Default

/-- `Path::from_n_native`. -/
def Path.from_n_native (native : PlatformPathVariant) (paths : List (List Char)) : Path :=
  Path.from_n paths native

/-- `Path::resolve` (method). -/
def Path.resolve (P : Path) (path2 : List Char) : Path :=
  ⟨arg_resolve P.s path2 P.v, P.v⟩

/-- `Path::resolve_n` (method). -/
def Path.resolve_n (P : Path) (paths : List (List Char)) : Path :=
  ⟨arg_resolve (P.s) (arg_resolve_n paths P.v) P.v, P.v⟩

/-- The `Path` values producible by the crate's constructors and by the
`resolve` / `resolve_n` methods. -/
inductive Reachable : Path → Prop where
  | new : ∀ p v, Reachable (Path.new p v)
  | new_common : ∀ p, Reachable (Path.new_common p)
  | new_native : ∀ native p, Reachable (Path.new_native native p)
  | from_n : ∀ ps v, Reachable (Path.from_n ps v)
  | from_n_common : ∀ ps, Reachable (Path.from_n_common ps)
  | from_n_native : ∀ native ps, Reachable (Path.from_n_native native ps)
  | resolve : ∀ P p2, Reachable P → Reachable (P.resolve p2)
  | resolve_n : ∀ P ps, Reachable P → Reachable (P.resolve_n ps)

/-! ### Claim-side (specification) definitions

These are written from the specification's words, for comparison with the
source-derived definitions above. -/

/-- Spec §3 prefix classification: `None`, `LeadingSeparator`,
`DriveLetter(letter)`, or `UNC`. -/
inductive PreClass where
  | nonePre
  | leadingSep
  | drive (letter : Char)
  | unc
deriving DecidableEq, Repr

/-- Spec §3/§4.3 prefix extraction: the longest UNC / drive-letter pattern
at the string start; absence means `LeadingSeparator` (when separator-led)
or `None`.  Only the `Windows` variant recognizes `DriveLetter` and `UNC`. -/
def preClass (p : List Char) (v : PlatformPathVariant) : PreClass :=
  match v with
  | .Default => if startsWithPathSeparator p then .leadingSep else .nonePre
  | .Windows =>
    match p with
    | c :: d :: _ =>
      if c = '\\' && d = '\\' then .unc
      else if isAsciiAlpha c && d = ':' then .drive c
      else if isPathSep c then .leadingSep else .nonePre
    | [c] => if isPathSep c then .leadingSep else .nonePre
    | [] => .nonePre

/-- Claim C2's classifier, verbatim from the claim: UNC, or drive letter,
or a separator followed by a **non-separator** character or end of string. -/
def winAbsClaimed (p : List Char) : Bool :=
  match p with
  | [] => false
  | [c] => isPathSep c
  | c :: d :: _ =>
    (c = '\\' && d = '\\') || (isAsciiAlpha c && d = ':') ||
    (isPathSep c && !isPathSep d)

/-- The amended C2 classifier: UNC, or drive letter, or a separator followed
by a **non-backslash** character or end of string. -/
def winAbsAmended (p : List Char) : Bool :=
  match p with
  | [] => false
  | [c] => isPathSep c
  | c :: d :: _ =>
    (c = '\\' && d = '\\') || (isAsciiAlpha c && d = ':') ||
    (isPathSep c && d ≠ '\\')

/-- Claim C5's accumulator step, verbatim from the claim's wording:
`.` and empty segments are skipped, `..` pops the last entry when the
accumulator is non-empty and is silently dropped otherwise, anything
else is pushed. -/
def specNormStep (acc : List (List Char)) (seg : List Char) : List (List Char) :=
  if seg = ['.'] ∨ seg = [] then acc
  else if seg = ['.', '.'] then (if acc = [] then acc else acc.dropLast)
  else acc ++ [seg]

/-- A normalized segment: nonempty, not `.`, not `..`, separator-free. -/
def cleanSeg (s : List Char) : Prop :=
  s ≠ [] ∧ s ≠ ['.'] ∧ s ≠ ['.', '.'] ∧ ∀ c ∈ s, isPathSep c = false

/-- A segment whose first character is not Rust whitespace. -/
def headNotWs (s : List Char) : Bool :=
  match s with
  | [] => true
  | c :: _ => !isRustWhitespace c

/-- A string starting with the drive-letter pattern `[A-Za-z]:`. -/
def drivePatB (s : List Char) : Bool :=
  match s with
  | c :: d :: _ => isAsciiAlpha c && d = ':'
  | _ => false

/-- A string starting with a drive-letter pattern that is *not* followed by
a forward slash (the shape on which Windows-variant renormalization is not
the identity). -/
def badDriveB (s : List Char) : Bool :=
  match s with
  | c :: d :: rest => isAsciiAlpha c && d = ':' && rest.head? ≠ some '/'
  | _ => false

/-- No backslash character occurs in the string. -/
def noBackslash (s : List Char) : Bool :=
  s.all (fun c => c ≠ '\\')

/-- Every member is a normalized segment. -/
def CleanSegs (segs : List (List Char)) : Prop :=
  ∀ s ∈ segs, cleanSeg s

/-- The canonical shapes of resolver outputs: a `/`-joined clean segment
list, optionally led by a single `/`, or (Windows only) the same led by a
drive-letter prefix plus `/`, or by the UNC marker. -/
def Canon (v : PlatformPathVariant) (s : List Char) : Prop :=
  (∃ segs, CleanSegs segs ∧ (s = joinSegs segs ∨ s = '/' :: joinSegs segs)) ∨
  (v = .Windows ∧ ∃ segs, CleanSegs segs ∧
    ((∃ c, isAsciiAlpha c = true ∧ s = c :: ':' :: '/' :: joinSegs segs) ∨
     s = '\\' :: '\\' :: joinSegs segs))

/-- The value computed by `common::relative` before trimming, expressed on
segment lists: one `..` per remaining `from` segment followed by the
remaining `to` segments, joined with `/`. -/
def relVal (α β : List (List Char)) : List Char :=
  joinSegs (List.replicate (α.length - commonRunLen α β) ['.', '.']
            ++ β.drop (commonRunLen α β))

/-- Shorthand: the normalized segment list of a path. -/
def segsOf (p : List Char) : List (List Char) :=
  normSegs (splitPath p)

/-- The stripped form a Windows-prefixed path contributes to the generic
relative algorithm: drop the matched prefix and re-add a separator. -/
def winStrip (p : List Char) : List Char :=
  match winPre? p with
  | some pre => stripPreAddSep p pre
  | none => p

/-- The form of `b` whose segments the relative algorithm emits: `b` itself
under the generic variant, its prefix-stripped form under Windows. -/
def strippedOf (b : List Char) (v : PlatformPathVariant) : List Char :=
  match v with
  | .Default => b
  | .Windows => winStrip b

end FilePaths

open FilePaths

-- the crate's own unit tests, replayed against the embedding
example : common_resolve_n ["a/b/..".data] = "a".data := by decide
example : common_resolve "/c".data "/a/b".data = "/a/b".data := by decide
example : common_resolve_one "a//b".data = "a/b".data := by decide
example : common_relative? "/a/b".data "/a/b/c".data = some "c".data := by decide
example : common_relative? "/a/b/c".data "/a".data = some "../..".data := by decide
example : common_relative? "/a".data "/".data = some "..".data := by decide
example : arg_resolve "C:/".data "a".data .Windows = "C:/a".data := by decide
example : arg_resolve "C:/".data "D:/".data .Windows = "D:/".data := by decide
example : arg_relative? "C:/".data "\\\\foo".data .Windows = some "\\\\foo".data := by decide
example : arg_relative? "\\\\a/b".data "\\\\foo".data .Windows = some "../../foo".data := by decide
example : arg_relative? "C:/".data "D:".data .Windows = some "D:/".data := by decide
example : arg_resolve_n ["foo".data, "\\\\Whack////a//Box".data, "..".data, "Box".data] .Windows
    = "\\\\Whack/a/Box".data := by decide

-- concrete evaluations referenced by the analysis below
example : arg_is_absolute "//a".data .Windows = true := by decide
example : arg_relative? "/a".data "/b".data .Windows = some "/b".data := by decide
example : common_relative? "/a".data "/b".data = some "../b".data := by decide
example : arg_resolve_one "./C:y".data .Windows = "C:y".data := by decide
example : arg_resolve_one "C:y".data .Windows = "C:/y".data := by decide
example : arg_resolve "C:/y".data "/x".data .Windows = "C:/x".data := by decide
example : arg_resolve_one "/x".data .Windows = "/x".data := by decide
example : arg_relative? "/".data "/ a".data .Default = some "a".data := by decide
example : arg_resolve "/".data "a".data .Default = "/a".data := by decide
example : arg_resolve_one "/ a".data .Default = "/ a".data := by decide
example : arg_relative? "/./x".data "/.y".data .Windows = some "../y".data := by decide
example : arg_resolve "/./x".data "../y".data .Windows = "/y".data := by decide
example : arg_resolve_one "/.y".data .Windows = "/.y".data := by decide
example : arg_relative? "D:/".data "D:/C:y".data .Windows = some "C:y".data := by decide
example : arg_resolve "D:/".data "C:y".data .Windows = "C:/y".data := by decide
example : arg_resolve_one "D:/C:y".data .Windows = "D:/C:y".data := by decide
example : arg_relative? "not/absolute".data "/x".data .Default = none := by decide

namespace FilePaths

/-! ### Lemmas about `splitPath` -/

theorem splitPath_ne_nil (p : List Char) : splitPath p ≠ [] := by
  induction p with
  | nil => simp [splitPath]
  | cons c cs ih =>
    unfold splitPath
    by_cases h : isPathSep c
    · simp [h]
    · simp only [h, Bool.false_eq_true, if_false]
      cases hs : splitPath cs with
      | nil => exact absurd hs ih
      | cons q qs => simp

theorem splitPath_cons_sep {c : Char} (p : List Char) (h : isPathSep c = true) :
    splitPath (c :: p) = [] :: splitPath p := by
  simp [splitPath, h]

theorem splitPath_cons_nonsep {c : Char} {p q : List Char} {qs : List (List Char)}
    (h : isPathSep c = false) (hs : splitPath p = q :: qs) :
    splitPath (c :: p) = (c :: q) :: qs := by
  simp [splitPath, h, hs]

theorem splitPath_noSep (p : List Char) :
    ∀ s ∈ splitPath p, ∀ c ∈ s, isPathSep c = false := by
  induction p with
  | nil =>
    intro s hs c hc
    simp [splitPath] at hs
    subst hs
    simp at hc
  | cons a p ih =>
    intro s hs c hc
    by_cases h : isPathSep a
    · rw [splitPath_cons_sep p h] at hs
      rcases List.mem_cons.mp hs with h1 | h1
      · subst h1; simp at hc
      · exact ih s h1 c hc
    · have hne := splitPath_ne_nil p
      obtain ⟨q, qs, hq⟩ : ∃ q qs, splitPath p = q :: qs := by
        cases hqq : splitPath p with
        | nil => exact absurd hqq hne
        | cons q qs => exact ⟨q, qs, rfl⟩
      rw [splitPath_cons_nonsep (by simpa using h) hq] at hs
      rcases List.mem_cons.mp hs with h1 | h1
      · subst h1
        rcases List.mem_cons.mp hc with h2 | h2
        · subst h2; simpa using h
        · exact ih q (hq ▸ List.mem_cons_self q qs) c h2
      · exact ih s (hq ▸ List.mem_cons_of_mem q h1) c hc

theorem splitPath_noSepAll {s : List Char} (h : ∀ c ∈ s, isPathSep c = false) :
    splitPath s = [s] := by
  induction s with
  | nil => rfl
  | cons c cs ih =>
    exact splitPath_cons_nonsep (h c (by simp)) (ih fun d hd => h d (by simp [hd]))

theorem splitPath_append_sep {s : List Char} (y : List Char)
    (h : ∀ c ∈ s, isPathSep c = false) :
    splitPath (s ++ '/' :: y) = s :: splitPath y := by
  induction s with
  | nil => exact splitPath_cons_sep y (by simp [isPathSep])
  | cons c cs ih =>
    exact splitPath_cons_nonsep (h c (by simp)) (ih fun d hd => h d (by simp [hd]))

theorem joinSegs_cons {s : List Char} {rest : List (List Char)} (h : rest ≠ []) :
    joinSegs (s :: rest) = s ++ '/' :: joinSegs rest := by
  cases rest with
  | nil => exact absurd rfl h
  | cons t ts => rfl

theorem splitPath_joinSegs {segs : List (List Char)} (hne : segs ≠ [])
    (hns : ∀ s ∈ segs, ∀ c ∈ s, isPathSep c = false) :
    splitPath (joinSegs segs) = segs := by
  induction segs with
  | nil => exact absurd rfl hne
  | cons s rest ih =>
    cases rest with
    | nil => exact splitPath_noSepAll (hns s (by simp))
    | cons t ts =>
      rw [joinSegs_cons (by simp), splitPath_append_sep _ (hns s (by simp)),
        ih (by simp) (fun u hu c hc => hns u (by simp [hu]) c hc)]

theorem splitPath_joinSegs_append {segs : List (List Char)} (y : List Char)
    (hne : segs ≠ [])
    (hns : ∀ s ∈ segs, ∀ c ∈ s, isPathSep c = false) :
    splitPath (joinSegs segs ++ '/' :: y) = segs ++ splitPath y := by
  induction segs with
  | nil => exact absurd rfl hne
  | cons s rest ih =>
    cases rest with
    | nil => simpa using splitPath_append_sep y (hns s (by simp))
    | cons t ts =>
      rw [joinSegs_cons (by simp), List.append_assoc, List.cons_append,
        splitPath_append_sep _ (hns s (by simp)),
        ih (by simp) (fun u hu c hc => hns u (by simp [hu]) c hc)]
      simp

/-! ### Lemmas about the normalization accumulator -/

theorem normStep_nil (acc : List (List Char)) : normStep acc [] = acc := by
  simp [normStep]

theorem normStep_dotdot (acc : List (List Char)) :
    normStep acc ['.', '.'] = acc.dropLast := by
  simp [normStep]

theorem normStep_clean {s : List Char} (acc : List (List Char)) (h : cleanSeg s) :
    normStep acc s = acc ++ [s] := by
  obtain ⟨h1, h2, h3, _⟩ := h
  simp [normStep, h1, h2, h3]

theorem foldl_normStep_clean {segs : List (List Char)} :
    ∀ (acc : List (List Char)), (∀ s ∈ segs, cleanSeg s) →
    List.foldl normStep acc segs = acc ++ segs := by
  induction segs with
  | nil => intro acc _; simp
  | cons s rest ih =>
    intro acc h
    rw [List.foldl_cons, normStep_clean acc (h s (by simp)),
      ih _ (fun u hu => h u (by simp [hu]))]
    simp

theorem foldl_normStep_clean_mem {ps : List (List Char)} :
    ∀ (acc : List (List Char)),
    (∀ s ∈ ps, ∀ c ∈ s, isPathSep c = false) →
    (∀ s ∈ acc, cleanSeg s) →
    ∀ s ∈ List.foldl normStep acc ps, cleanSeg s := by
  induction ps with
  | nil => intro acc _ hacc; simpa using hacc
  | cons p ps ih =>
    intro acc hps hacc
    rw [List.foldl_cons]
    refine ih _ (fun s hs c hc => hps s (by simp [hs]) c hc) ?_
    intro s hs
    unfold normStep at hs
    by_cases e1 : p = ['.']
    · simp [e1] at hs; exact hacc s hs
    · by_cases e2 : p = ['.', '.']
      · simp [e1, e2] at hs
        exact hacc s (List.dropLast_subset _ hs)
      · by_cases e3 : p = []
        · simp [e1, e2, e3] at hs; exact hacc s hs
        · simp [e1, e2, e3] at hs
          rcases hs with hs | hs
          · exact hacc s hs
          · subst hs
            exact ⟨e3, e1, e2, hps s (by simp)⟩

theorem segsOf_clean (p : List Char) : ∀ s ∈ segsOf p, cleanSeg s :=
  foldl_normStep_clean_mem [] (splitPath_noSep p) (by simp)

theorem foldl_normStep_dots :
    ∀ (n : Nat) (acc : List (List Char)),
    List.foldl normStep acc (List.replicate n ['.', '.']) =
      acc.take (acc.length - n) := by
  intro n
  induction n with
  | zero => intro acc; simp
  | succ n ih =>
    intro acc
    rw [List.replicate_succ, List.foldl_cons, normStep_dotdot, ih,
      List.dropLast_eq_take, List.take_take, List.length_take]
    congr 1
    omega

/-! ### Lemmas about `joinSegs` -/

theorem joinSegs_ne_nil {segs : List (List Char)} (hne : segs ≠ [])
    (h : ∀ s ∈ segs, s ≠ []) : joinSegs segs ≠ [] := by
  cases segs with
  | nil => exact absurd rfl hne
  | cons s rest =>
    cases rest with
    | nil => exact h s (by simp)
    | cons t ts => simp [joinSegs_cons]

theorem mem_joinSegs {segs : List (List Char)} {c : Char} :
    c ∈ joinSegs segs → c = '/' ∨ ∃ s ∈ segs, c ∈ s := by
  induction segs with
  | nil => intro h; simp [joinSegs] at h
  | cons s rest ih =>
    intro h
    cases rest with
    | nil => exact Or.inr ⟨s, by simp, h⟩
    | cons t ts =>
      rw [joinSegs_cons (by simp)] at h
      rcases List.mem_append.mp h with h | h
      · exact Or.inr ⟨s, by simp, h⟩
      · rcases List.mem_cons.mp h with h | h
        · exact Or.inl h
        · rcases ih h with h | ⟨u, hu, hcu⟩
          · exact Or.inl h
          · exact Or.inr ⟨u, by simp [hu], hcu⟩

theorem joinSegs_not_sep_led {segs : List (List Char)}
    (h : ∀ s ∈ segs, s ≠ [] ∧ ∀ c ∈ s, isPathSep c = false) :
    startsWithPathSeparator (joinSegs segs) = false := by
  cases segs with
  | nil => rfl
  | cons s rest =>
    have hs := h s (by simp)
    obtain ⟨c, cs, rfl⟩ : ∃ c cs, s = c :: cs := by
      cases s with
      | nil => exact absurd rfl hs.1
      | cons c cs => exact ⟨c, cs, rfl⟩
    have hc : isPathSep c = false := hs.2 c (by simp)
    cases rest with
    | nil => simpa [joinSegs, startsWithPathSeparator] using hc
    | cons t ts =>
      rw [joinSegs_cons (by simp)]
      simpa [startsWithPathSeparator] using hc

theorem joinSegs_getLast_ne {segs : List (List Char)}
    (h : ∀ s ∈ segs, s ≠ [] ∧ ∀ c ∈ s, isPathSep c = false) :
    (joinSegs segs).getLast? ≠ some '/' := by
  induction segs with
  | nil => simp [joinSegs]
  | cons s rest ih =>
    cases rest with
    | nil =>
      intro hc
      have hmem : '/' ∈ s := by
        refine List.mem_of_mem_getLast? (Option.mem_def.mpr ?_)
        simpa [joinSegs] using hc
      have := (h s (by simp)).2 '/' hmem
      simp [isPathSep] at this
    | cons t ts =>
      rw [joinSegs_cons (by simp), List.getLast?_append]
      have hjne : joinSegs (t :: ts) ≠ [] :=
        joinSegs_ne_nil (by simp) (fun u hu => (h u (by simp [hu])).1)
      obtain ⟨y, hy⟩ := Option.isSome_iff_exists.mp (List.getLast?_isSome.mpr hjne)
      have hy2 : ('/' :: joinSegs (t :: ts)).getLast? = some y := by
        rw [show ('/' :: joinSegs (t :: ts)) = ['/'] ++ joinSegs (t :: ts) from rfl,
          List.getLast?_append, hy]
        rfl
      rw [hy2]
      have hne2 := ih (fun u hu => h u (by simp [hu]))
      rw [hy] at hne2
      simpa using hne2

/-! ### Generic resolver lemmas -/

theorem wss_sep_cons {c : Char} (p : List Char) (h : isPathSep c = true) :
    resolve_one_without_starting_sep (c :: p) = resolve_one_without_starting_sep p := by
  unfold resolve_one_without_starting_sep normSegs
  rw [splitPath_cons_sep p h, List.foldl_cons, normStep_nil]

theorem segsOf_sep_cons {c : Char} (p : List Char) (h : isPathSep c = true) :
    segsOf (c :: p) = segsOf p := by
  unfold segsOf normSegs
  rw [splitPath_cons_sep p h, List.foldl_cons, normStep_nil]

theorem wss_eq_joinSegs (p : List Char) :
    resolve_one_without_starting_sep p = joinSegs (segsOf p) := rfl

theorem wss_joinSegs_clean {segs : List (List Char)}
    (h : ∀ s ∈ segs, cleanSeg s) :
    resolve_one_without_starting_sep (joinSegs segs) = joinSegs segs := by
  cases segs with
  | nil => rfl
  | cons s rest =>
    unfold resolve_one_without_starting_sep normSegs
    rw [splitPath_joinSegs (by simp) (fun u hu c hc => (h u hu).2.2.2 c hc)]
    rw [show List.foldl normStep [] (s :: rest) = [] ++ (s :: rest) from
      foldl_normStep_clean [] h]
    simp

theorem wss_idem (p : List Char) :
    resolve_one_without_starting_sep (resolve_one_without_starting_sep p) =
      resolve_one_without_starting_sep p := by
  rw [wss_eq_joinSegs p]
  exact wss_joinSegs_clean (segsOf_clean p)

end FilePaths

namespace FilePaths

theorem common_resolve_one_sep_led {p : List Char}
    (h : startsWithPathSeparator p = true) :
    common_resolve_one p = '/' :: joinSegs (segsOf p) := by
  simp [common_resolve_one, h, wss_eq_joinSegs]

theorem common_resolve_one_not_sep_led {p : List Char}
    (h : startsWithPathSeparator p = false) :
    common_resolve_one p = joinSegs (segsOf p) := by
  simp [common_resolve_one, h, wss_eq_joinSegs]

theorem segsOf_joinSegs {segs : List (List Char)} (h : ∀ s ∈ segs, cleanSeg s) :
    segsOf (joinSegs segs) = segs := by
  cases segs with
  | nil => simp [segsOf, splitPath, normSegs, normStep, joinSegs]
  | cons s rest =>
    unfold segsOf
    rw [splitPath_joinSegs (by simp) (fun u hu c hc => (h u hu).2.2.2 c hc)]
    exact (foldl_normStep_clean [] h).trans (by simp)

theorem common_resolve_one_idem (p : List Char) :
    common_resolve_one (common_resolve_one p) = common_resolve_one p := by
  by_cases h : startsWithPathSeparator p
  · rw [common_resolve_one_sep_led h]
    have h1 : startsWithPathSeparator ('/' :: joinSegs (segsOf p)) = true := by
      simp [startsWithPathSeparator, isPathSep]
    rw [common_resolve_one_sep_led h1, segsOf_sep_cons _ (by simp [isPathSep]),
      segsOf_joinSegs (segsOf_clean p)]
  · have e : common_resolve_one p = joinSegs (segsOf p) :=
      common_resolve_one_not_sep_led (by simpa using h)
    rw [e]
    have h1 : startsWithPathSeparator (joinSegs (segsOf p)) = false :=
      joinSegs_not_sep_led
        (fun s hs => ⟨(segsOf_clean p s hs).1, (segsOf_clean p s hs).2.2.2⟩)
    rw [common_resolve_one_not_sep_led h1, segsOf_joinSegs (segsOf_clean p)]

/-! ### Internals of `common::relative` -/

theorem removeSecond_of_sep_led {A : List Char}
    (hA : startsWithPathSeparator A = true) :
    removeSecondIfEmpty? (splitPath (common_resolve_one A)) =
      some ([] :: segsOf A) := by
  rw [common_resolve_one_sep_led hA, splitPath_cons_sep _ (by simp [isPathSep])]
  cases hs : segsOf A with
  | nil => simp [hs, splitPath, removeSecondIfEmpty?]
  | cons s rest =>
    rw [splitPath_joinSegs (by simp)
      (fun u hu c hc => ((hs ▸ segsOf_clean A) u hu).2.2.2 c hc)]
    have hne : s ≠ [] := ((hs ▸ segsOf_clean A) s (by simp)).1
    simp [removeSecondIfEmpty?, hne]

theorem commonRunLen_cons {a b : List Char} {as_ bs : List (List Char)}
    (h : a = b) :
    commonRunLen (a :: as_) (b :: bs) = commonRunLen as_ bs + 1 := by
  simp [commonRunLen, h]

theorem commonRunLen_le_left :
    ∀ (α β : List (List Char)), commonRunLen α β ≤ α.length := by
  intro α
  induction α with
  | nil => intro β; simp [commonRunLen]
  | cons a as_ ih =>
    intro β
    cases β with
    | nil => simp [commonRunLen]
    | cons b bs =>
      by_cases h : a = b
      · rw [commonRunLen_cons h]
        simpa using ih bs
      · simp [commonRunLen, h]

theorem commonRunLen_le_right :
    ∀ (α β : List (List Char)), commonRunLen α β ≤ β.length := by
  intro α
  induction α with
  | nil => intro β; simp [commonRunLen]
  | cons a as_ ih =>
    intro β
    cases β with
    | nil => simp [commonRunLen]
    | cons b bs =>
      by_cases h : a = b
      · rw [commonRunLen_cons h]
        simpa using ih bs
      · simp [commonRunLen, h]

theorem commonRunLen_take_eq :
    ∀ (α β : List (List Char)),
    α.take (commonRunLen α β) = β.take (commonRunLen α β) := by
  intro α
  induction α with
  | nil => intro β; simp [commonRunLen]
  | cons a as_ ih =>
    intro β
    cases β with
    | nil => simp [commonRunLen]
    | cons b bs =>
      by_cases h : a = b
      · rw [commonRunLen_cons h]
        simp [List.take_succ_cons, h, ih bs]
      · simp [commonRunLen, h]

theorem eraseDescending_eq_drop :
    ∀ (k : Nat) (parts : List (List Char)), k ≤ parts.length →
    eraseDescending parts k = parts.drop k := by
  intro k
  induction k with
  | zero => intro parts _; simp [eraseDescending]
  | succ k ih =>
    intro parts hk
    unfold eraseDescending
    rw [List.range_succ, List.reverse_append]
    simp only [List.reverse_cons, List.reverse_nil, List.nil_append,
      List.cons_append, List.foldl_cons]
    have h1 : (parts.eraseIdx k) = parts.take k ++ parts.drop (k + 1) :=
      List.eraseIdx_eq_take_drop_succ parts k
    have h2 : eraseDescending (parts.eraseIdx k) k = (parts.eraseIdx k).drop k := by
      refine ih _ ?_
      rw [h1]
      simp only [List.length_append, List.length_take, List.length_drop]
      omega
    unfold eraseDescending at h2
    rw [h2, h1, List.drop_append_eq_append_drop]
    have h3 : (parts.take k).length = k := by
      rw [List.length_take]
      omega
    rw [h3]
    simp

end FilePaths

namespace FilePaths

/-! ### The value computed by `common::relative` -/

theorem relParts_ne_nil_noSep (α : List (List Char)) {β : List (List Char)}
    (hβ : ∀ s ∈ β, cleanSeg s) :
    ∀ s ∈ List.replicate (α.length - commonRunLen α β) ['.', '.']
            ++ β.drop (commonRunLen α β),
      s ≠ [] ∧ ∀ c ∈ s, isPathSep c = false := by
  intro s hs
  rcases List.mem_append.mp hs with hs | hs
  · have := List.eq_of_mem_replicate hs
    subst this
    refine ⟨by simp, ?_⟩
    intro c hc
    rcases List.mem_cons.mp hc with rfl | hc
    · decide
    · rcases List.mem_cons.mp hc with rfl | hc
      · decide
      · simp at hc
  · have := hβ s (List.mem_of_mem_drop hs)
    exact ⟨this.1, this.2.2.2⟩

theorem headNotWs_of_not_ws {c : Char} {cs : List Char}
    (h : isRustWhitespace c = false) : headNotWs (c :: cs) = true := by
  simp [headNotWs, h]

theorem rustTrimStart_eq_self {p : List Char} (h : headNotWs p = true) :
    rustTrimStart p = p := by
  cases p with
  | nil => rfl
  | cons c cs =>
    have : isRustWhitespace c = false := by
      by_contra hb
      simp [headNotWs, eq_true_of_ne_false hb] at h
    simp [rustTrimStart, List.dropWhile, this]

theorem joinSegs_cons_cons (c : Char) (cs : List Char) (rest : List (List Char)) :
    ∃ tail, joinSegs ((c :: cs) :: rest) = c :: tail := by
  cases rest with
  | nil => exact ⟨cs, rfl⟩
  | cons t ts => exact ⟨cs ++ '/' :: joinSegs (t :: ts), by rw [joinSegs_cons (by simp)]; rfl⟩

theorem headNotWs_joinSegs {segs : List (List Char)}
    (hne : ∀ s ∈ segs, s ≠ []) (h : ∀ s ∈ segs, headNotWs s = true) :
    headNotWs (joinSegs segs) = true := by
  cases segs with
  | nil => rfl
  | cons s rest =>
    obtain ⟨c, cs, rfl⟩ : ∃ c cs, s = c :: cs := by
      cases s with
      | nil => exact absurd rfl (hne _ (by simp))
      | cons c cs => exact ⟨c, cs, rfl⟩
    obtain ⟨tail, htail⟩ := joinSegs_cons_cons c cs rest
    rw [htail]
    have := h (c :: cs) (by simp)
    simpa [headNotWs] using this

theorem headNotWs_relVal {α β : List (List Char)} (hβ : ∀ s ∈ β, cleanSeg s)
    (hws : ∀ s ∈ β, headNotWs s = true) :
    headNotWs (relVal α β) = true := by
  unfold relVal
  refine headNotWs_joinSegs ?_ ?_
  · intro s hs
    exact (relParts_ne_nil_noSep α hβ s hs).1
  · intro s hs
    rcases List.mem_append.mp hs with hs | hs
    · have := List.eq_of_mem_replicate hs
      subst this
      decide
    · exact hws s (List.mem_of_mem_drop hs)

/-- The precise value returned by `common::relative` on separator-led inputs
whose `to`-side normalized segments do not begin with whitespace. -/
theorem common_relative_eq {A B : List Char}
    (hA : startsWithPathSeparator A = true) (hB : startsWithPathSeparator B = true)
    (hws : ∀ s ∈ segsOf B, headNotWs s = true) :
    common_relative? A B = some (relVal (segsOf A) (segsOf B)) := by
  unfold common_relative?
  rw [hA, hB]
  simp only [Bool.and_self, if_true]
  rw [removeSecond_of_sep_led hA, removeSecond_of_sep_led hB]
  simp only
  have hk : commonRunLen ([] :: segsOf A) ([] :: segsOf B)
      = commonRunLen (segsOf A) (segsOf B) + 1 := commonRunLen_cons rfl
  rw [hk]
  have hkA := commonRunLen_le_left (segsOf A) (segsOf B)
  have hkB := commonRunLen_le_right (segsOf A) (segsOf B)
  rw [show eraseDescending ([] :: segsOf A) (commonRunLen (segsOf A) (segsOf B) + 1)
      = ([] :: segsOf A).drop (commonRunLen (segsOf A) (segsOf B) + 1) from
    eraseDescending_eq_drop _ _ (by simp; omega)]
  rw [show eraseDescending ([] :: segsOf B) (commonRunLen (segsOf A) (segsOf B) + 1)
      = ([] :: segsOf B).drop (commonRunLen (segsOf A) (segsOf B) + 1) from
    eraseDescending_eq_drop _ _ (by simp; omega)]
  simp only [List.drop_succ_cons, List.length_drop]
  have hr : rustTrimStart (relVal (segsOf A) (segsOf B)) = relVal (segsOf A) (segsOf B) :=
    rustTrimStart_eq_self (headNotWs_relVal (segsOf_clean B) hws)
  unfold relVal at hr ⊢
  rw [hr]
  have hlast := joinSegs_getLast_ne
    (relParts_ne_nil_noSep (segsOf A) (segsOf_clean B))
  rw [if_neg hlast]

theorem common_resolve_sep_led_right {A r : List Char}
    (h : startsWithPathSeparator r = true) :
    common_resolve A r = common_resolve_one r := by
  unfold common_resolve
  rw [h]
  simp

theorem common_resolve_nil_right (A : List Char) :
    common_resolve A [] = common_resolve_one A := by
  unfold common_resolve common_resolve_one
  rw [show startsWithPathSeparator ([] : List Char) = false from rfl]
  simp

theorem common_resolve_combo {A r : List Char}
    (h2 : startsWithPathSeparator r = false) (hne : r ≠ [])
    (hA : startsWithPathSeparator A = true) :
    common_resolve A r = '/' :: resolve_one_without_starting_sep
      (resolve_one_without_starting_sep A ++ '/' :: r) := by
  unfold common_resolve
  rw [h2, hA]
  simp [hne]

/-- Resolving the `relative` value against the `from` path recovers the
normalized `to` segments (generic core of the round-trip law). -/
theorem common_resolve_relVal {A : List Char} {α β : List (List Char)}
    (hA : startsWithPathSeparator A = true) (hα : segsOf A = α)
    (hβ : ∀ s ∈ β, cleanSeg s) :
    common_resolve A (relVal α β) = '/' :: joinSegs β := by
  have hαclean : ∀ s ∈ α, cleanSeg s := hα ▸ segsOf_clean A
  set k := commonRunLen α β with hkdef
  have hkA := commonRunLen_le_left α β
  have hkB := commonRunLen_le_right α β
  set L := List.replicate (α.length - k) ['.', '.'] ++ β.drop k with hL
  have hLprops := relParts_ne_nil_noSep α hβ
  by_cases hLnil : L = []
  · have hn : α.length - k = 0 ∧ β.drop k = [] := by
      constructor
      · by_contra hb
        have : L ≠ [] := by
          rw [hL]
          cases he : List.replicate (α.length - k) (['.', '.'] : List Char) with
          | nil => simp [List.replicate_eq_nil_iff] at he; omega
          | cons x xs => simp [he]
        exact this hLnil
      · rcases List.append_eq_nil.mp hLnil with ⟨_, h2⟩
        exact h2
    have hkα : k = α.length := by omega
    have hkβ : k = β.length := by
      have := List.drop_eq_nil_iff.mp hn.2
      omega
    have hαβ : α = β := by
      have h1 : α.take k = α := by rw [hkα]; exact List.take_length α
      have h2 : β.take k = β := by rw [hkβ]; exact List.take_length β
      rw [← h1, ← h2]
      exact commonRunLen_take_eq α β
    have hrv : relVal α β = [] := by
      unfold relVal
      rw [← hkdef, ← hL, hLnil]
      rfl
    rw [hrv, common_resolve_nil_right, common_resolve_one_sep_led hA, hα, hαβ]
  · have hrv : relVal α β = joinSegs L := by
      unfold relVal
      rw [← hkdef, ← hL]
    have hrne : joinSegs L ≠ [] :=
      joinSegs_ne_nil hLnil (fun s hs => (hLprops s hs).1)
    have hrsep : startsWithPathSeparator (joinSegs L) = false :=
      joinSegs_not_sep_led hLprops
    rw [hrv, common_resolve_combo hrsep hrne hA]
    congr 1
    -- resolve_one_without_starting_sep (wss A ++ '/' :: joinSegs L) = joinSegs β
    rw [show resolve_one_without_starting_sep A = joinSegs α from by
      rw [wss_eq_joinSegs, hα]]
    unfold resolve_one_without_starting_sep
    have hsplitL : splitPath (joinSegs L) = L :=
      splitPath_joinSegs hLnil (fun s hs => (hLprops s hs).2)
    have hsplit : splitPath (joinSegs α ++ '/' :: joinSegs L)
        = α ++ L ∨ splitPath (joinSegs α ++ '/' :: joinSegs L) = [] :: L := by
      cases hα0 : α with
      | nil =>
        right
        show splitPath ('/' :: joinSegs L) = [] :: L
        rw [splitPath_cons_sep _ (by simp [isPathSep]), hsplitL]
      | cons a as_ =>
        left
        rw [← hα0]
        rw [splitPath_joinSegs_append _ (by simp [hα0])
          (fun u hu c hc => (hαclean u hu).2.2.2 c hc), hsplitL]
    have hfold : List.foldl normStep [] (α ++ L) = β ∧
        List.foldl normStep [] ([] :: L) = List.foldl normStep [] L := by
      constructor
      · rw [List.foldl_append]
        rw [show List.foldl normStep [] α = [] ++ α from foldl_normStep_clean [] hαclean]
        rw [List.nil_append, hL, List.foldl_append, foldl_normStep_dots]
        have : α.length - (α.length - k) = k := by omega
        rw [this]
        rw [foldl_normStep_clean _ (fun s hs => hβ s (List.mem_of_mem_drop hs))]
        rw [commonRunLen_take_eq α β, ← hkdef]
        exact List.take_append_drop k β
      · rw [List.foldl_cons, normStep_nil]
    rcases hsplit with hsp | hsp
    · rw [hsp]
      unfold normSegs
      rw [hfold.1]
    · -- α = [] here
      have hα0 : α = [] := by
        by_contra hb
        obtain ⟨a, as_, rfl⟩ : ∃ a as_, α = a :: as_ := by
          cases α with
          | nil => exact absurd rfl hb
          | cons a as_ => exact ⟨a, as_, rfl⟩
        -- then splitPath of the append starts with a nonempty piece, not []
        rw [splitPath_joinSegs_append _ (by simp)
          (fun u hu c hc => (hαclean u hu).2.2.2 c hc), hsplitL] at hsp
        have := congrArg List.head? hsp
        simp at this
        exact (hαclean a (by simp)).1 this
      rw [hsp]
      unfold normSegs
      rw [hfold.2]
      have : List.foldl normStep [] L = β := by
        have h1 := hfold.1
        rw [hα0] at h1
        simpa using h1
      rw [this]

end FilePaths

namespace FilePaths

/-! ### `winPre?` shape lemmas -/

theorem isAsciiAlpha_ne_backslash {c : Char} (h : isAsciiAlpha c = true) :
    c ≠ '\\' := by
  intro hc
  subst hc
  exact absurd h (by decide)

theorem winPre?_none_of_conds {c d : Char} (t : List Char)
    (h1 : ¬(c = '\\' ∧ d = '\\')) (h2 : ¬(isAsciiAlpha c = true ∧ d = ':')) :
    winPre? (c :: d :: t) = none := by
  simp only [winPre?]
  rw [if_neg (by simpa [Bool.and_eq_true, decide_eq_true_eq] using h1),
    if_neg (by simpa [Bool.and_eq_true, decide_eq_true_eq] using h2)]

theorem winPre?_unc (x : List Char) : winPre? ('\\' :: '\\' :: x) = some ['\\', '\\'] := by
  simp +decide [winPre?]

theorem winPre?_drive {c : Char} (x : List Char) (h : isAsciiAlpha c = true) :
    winPre? (c :: ':' :: x) = some [c, ':'] := by
  simp +decide [winPre?, h]

theorem winPre?_single (c : Char) : winPre? [c] = none := rfl

theorem winPre?_nil : winPre? [] = none := rfl

theorem winPre?_slash_cons (x : List Char) : winPre? ('/' :: x) = none := by
  cases x with
  | nil => rfl
  | cons d xs => simp +decide [winPre?, isAsciiAlpha]

theorem winPre?_eq_some {p pre : List Char} (h : winPre? p = some pre) :
    (∃ rest, p = '\\' :: '\\' :: rest ∧ pre = ['\\', '\\']) ∨
    (∃ c rest, p = c :: ':' :: rest ∧ isAsciiAlpha c = true ∧ pre = [c, ':']) := by
  match p with
  | [] => simp [winPre?] at h
  | [c] => simp [winPre?] at h
  | c :: d :: rest =>
    simp only [winPre?] at h
    by_cases h1 : c = '\\' ∧ d = '\\'
    · rw [if_pos (by simp [h1.1, h1.2])] at h
      exact Or.inl ⟨rest, by simp [h1.1, h1.2], by simpa using h.symm⟩
    · rw [if_neg (by simpa [Bool.and_eq_true, decide_eq_true_eq] using h1)] at h
      by_cases h2 : isAsciiAlpha c = true ∧ d = ':'
      · rw [if_pos (by simp [h2.1, h2.2])] at h
        exact Or.inr ⟨c, rest, by simp [h2.2], h2.1, by simpa using h.symm⟩
      · rw [if_neg (by simpa [Bool.and_eq_true, decide_eq_true_eq] using h2)] at h
        simp at h

theorem winPre?_dotdot_cons (x : List Char) : winPre? ('.' :: '.' :: x) = none := by
  simp +decide [winPre?, isAsciiAlpha]

/-! ### Shape facts about `relVal` -/

theorem relVal_not_sep_led {α β : List (List Char)}
    (hβ : ∀ s ∈ β, cleanSeg s) :
    startsWithPathSeparator (relVal α β) = false := by
  unfold relVal
  exact joinSegs_not_sep_led (relParts_ne_nil_noSep α hβ)

theorem winPre?_relVal {α β : List (List Char)}
    (hβ : ∀ s ∈ β, cleanSeg s) (hd : ∀ s ∈ β, drivePatB s = false) :
    winPre? (relVal α β) = none := by
  unfold relVal
  cases hrep : List.replicate (α.length - commonRunLen α β) (['.', '.'] : List Char) with
  | cons ddseg rest =>
    have hdd : ddseg = ['.', '.'] :=
      List.eq_of_mem_replicate (hrep ▸ List.mem_cons_self ddseg rest)
    subst hdd
    rw [List.cons_append]
    obtain ⟨t, ht⟩ : ∃ t, joinSegs (['.', '.'] :: (rest ++ (β.drop (commonRunLen α β)))) =
        '.' :: '.' :: t := by
      cases hre : rest ++ β.drop (commonRunLen α β) with
      | nil => exact ⟨[], by simp [hre, joinSegs]⟩
      | cons u us =>
        refine ⟨'/' :: joinSegs (u :: us), ?_⟩
        rw [joinSegs_cons (by simp)]
        rfl
    rw [ht]
    exact winPre?_dotdot_cons t
  | nil =>
    rw [List.nil_append]
    cases hdrop : β.drop (commonRunLen α β) with
    | nil => exact winPre?_nil
    | cons s rest =>
      have hsβ : s ∈ β := List.mem_of_mem_drop (hdrop ▸ List.mem_cons_self s rest)
      have hclean := hβ s hsβ
      obtain ⟨c, cs, rfl⟩ : ∃ c cs, s = c :: cs := by
        cases s with
        | nil => exact absurd rfl hclean.1
        | cons c cs => exact ⟨c, cs, rfl⟩
      have hcsep : isPathSep c = false := hclean.2.2.2 c (by simp)
      have hcbs : c ≠ '\\' := by
        intro hc
        subst hc
        simp [isPathSep] at hcsep
      cases cs with
      | nil =>
        cases rest with
        | nil => exact winPre?_single c
        | cons u us =>
          rw [joinSegs_cons (by simp)]
          refine winPre?_none_of_conds _ (fun hp => hcbs hp.1) (fun hp => ?_)
          have := hp.2
          simp at this
      | cons c2 cs2 =>
        obtain ⟨t, ht⟩ : ∃ t, joinSegs ((c :: c2 :: cs2) :: rest) = c :: c2 :: t := by
          cases rest with
          | nil => exact ⟨cs2, rfl⟩
          | cons u us => exact ⟨cs2 ++ '/' :: joinSegs (u :: us),
              by rw [joinSegs_cons (by simp)]; rfl⟩
        rw [ht]
        refine winPre?_none_of_conds _ (fun hp => hcbs hp.1) (fun hp => ?_)
        have := hd _ hsβ
        simp [drivePatB, hp.1, hp.2] at this

theorem relVal_eq_nil_iff {α β : List (List Char)}
    (hβ : ∀ s ∈ β, cleanSeg s) :
    relVal α β = [] ↔
      (List.replicate (α.length - commonRunLen α β) (['.', '.'] : List Char)
        ++ β.drop (commonRunLen α β)) = [] := by
  constructor
  · intro h
    by_contra hb
    exact joinSegs_ne_nil hb
      (fun s hs => (relParts_ne_nil_noSep α hβ s hs).1) h
  · intro h
    unfold relVal
    rw [h]
    rfl

/-- On separator-led inputs `common::relative` always returns (never panics),
independently of any whitespace condition. -/
theorem common_relative_isSome {A B : List Char}
    (hA : startsWithPathSeparator A = true) (hB : startsWithPathSeparator B = true) :
    ∃ r, common_relative? A B = some r := by
  unfold common_relative?
  rw [hA, hB]
  simp only [Bool.and_self, if_true]
  rw [removeSecond_of_sep_led hA, removeSecond_of_sep_led hB]
  exact ⟨_, rfl⟩

end FilePaths

namespace FilePaths

/-! ### Unfolding the Windows branch of `argumented::resolve` -/

theorem replaceWinPre_none {p : List Char} (h : winPre? p = none) :
    replaceWinPre p = p := by
  simp [replaceWinPre, h]

theorem replaceWinPre_some {p pre : List Char} (h : winPre? p = some pre) :
    replaceWinPre p = '/' :: p.drop pre.length := by
  simp [replaceWinPre, h]

theorem winPre?_length {p pre : List Char} (h : winPre? p = some pre) :
    pre.length = 2 := by
  rcases winPre?_eq_some h with ⟨_, _, hpre⟩ | ⟨_, _, _, _, hpre⟩ <;> simp [hpre]

theorem arg_resolve_win_no_pre {p1 p2 : List Char}
    (h1 : winPre? p1 = none) (h2 : winPre? p2 = none) :
    arg_resolve p1 p2 .Windows = common_resolve p1 p2 := by
  simp only [arg_resolve]
  rw [show ([p1, p2].filter (fun p => (winPre? p).isSome)) = [] from by
    simp [List.filter_cons, h1, h2]]
  rfl

theorem arg_resolve_win_pre2 {p1 p2 pre : List Char} (h2 : winPre? p2 = some pre) :
    arg_resolve p1 p2 .Windows =
      (if pre = ['\\', '\\'] then
        '\\' :: '\\' :: (common_resolve (replaceWinPre p1) (replaceWinPre p2)).drop 1
      else pre ++ common_resolve (replaceWinPre p1) (replaceWinPre p2)) := by
  simp only [arg_resolve]
  have hl : ([p1, p2].filter (fun p => (winPre? p).isSome)).getLast? = some p2 := by
    by_cases h1 : (winPre? p1).isSome = true <;> simp [List.filter_cons, h1, h2]
  rw [hl]
  simp [h2]

theorem arg_resolve_win_pre1 {p1 p2 pre : List Char}
    (h1 : winPre? p1 = some pre) (h2 : winPre? p2 = none) :
    arg_resolve p1 p2 .Windows =
      (if pre = ['\\', '\\'] then
        '\\' :: '\\' :: (common_resolve (replaceWinPre p1) (replaceWinPre p2)).drop 1
      else pre ++ common_resolve (replaceWinPre p1) (replaceWinPre p2)) := by
  simp only [arg_resolve]
  have hl : ([p1, p2].filter (fun p => (winPre? p).isSome)).getLast? = some p1 := by
    simp [List.filter_cons, h1, h2]
  rw [hl]
  simp [h1]

/-! ### Shapes of `argumented::resolve_one` -/

theorem arg_resolve_one_eq (p : List Char) (v : PlatformPathVariant) :
    arg_resolve_one p v = arg_resolve p [] v := rfl

theorem arg_resolve_one_default (p : List Char) :
    arg_resolve_one p .Default = common_resolve_one p := by
  simp only [arg_resolve_one, arg_resolve_n, arg_resolve]
  exact common_resolve_nil_right p

theorem arg_resolve_one_windows_none {p : List Char} (h : winPre? p = none) :
    arg_resolve_one p .Windows = common_resolve_one p := by
  rw [arg_resolve_one_eq, arg_resolve_win_no_pre h winPre?_nil,
    common_resolve_nil_right]

theorem arg_resolve_one_windows_pre {p pre : List Char} (h : winPre? p = some pre) :
    arg_resolve_one p .Windows =
      (if pre = ['\\', '\\'] then
        '\\' :: '\\' :: resolve_one_without_starting_sep (p.drop 2)
      else pre ++ '/' :: resolve_one_without_starting_sep (p.drop 2)) := by
  rw [arg_resolve_one_eq, arg_resolve_win_pre1 h winPre?_nil,
    replaceWinPre_some h, winPre?_length h, replaceWinPre_none winPre?_nil,
    common_resolve_nil_right,
    common_resolve_one_sep_led (by simp [startsWithPathSeparator, isPathSep]),
    wss_eq_joinSegs, segsOf_sep_cons _ (by simp [isPathSep])]
  rfl

end FilePaths

namespace FilePaths

theorem stripPreAddSep_sep_led (p pre : List Char) :
    startsWithPathSeparator (stripPreAddSep p pre) = true := by
  unfold stripPreAddSep
  by_cases h : startsWithPathSeparator (p.drop pre.length) = true
  · rw [if_pos h]
    exact h
  · rw [if_neg h]
    rfl

theorem arg_relative?_windows_eq {f t pf pt : List Char}
    (hpf : winPreOrSlash? f = some pf) (hpt : winPreOrSlash? t = some pt)
    (habs : (arg_is_absolute f .Windows && arg_is_absolute t .Windows) = true) :
    arg_relative? f t .Windows =
      if pf ≠ pt then some (arg_resolve_one t .Windows)
      else common_relative? (stripPreAddSep f pf) (stripPreAddSep t pf) := by
  simp only [arg_relative?]
  rw [if_pos habs, hpf, hpt]

end FilePaths

/-- C5: the segment normalizer splits the input on `/` and `\` and folds the
claim's accumulator step over the pieces (`.` and empty skipped, `..` pops
when the accumulator is non-empty and is silently dropped otherwise, other
segments pushed), joins the accumulator with `/`, and maps empty input to
the empty string. -/
theorem C5_segment_normalizer :
    (∀ p : List Char, resolve_one_without_starting_sep p =
      joinSegs ((splitPath p).foldl specNormStep [])) ∧
    resolve_one_without_starting_sep [] = [] := by
  constructor
  · intro p
    unfold resolve_one_without_starting_sep normSegs
    congr 1
    have key : ∀ (segs : List (List Char)) (acc : List (List Char)),
        List.foldl normStep acc segs = List.foldl specNormStep acc segs := by
      intro segs
      induction segs with
      | nil => intro acc; rfl
      | cons s rest ih =>
        intro acc
        rw [List.foldl_cons, List.foldl_cons]
        have hstep : normStep acc s = specNormStep acc s := by
          unfold normStep specNormStep
          by_cases e1 : s = ['.']
          · simp [e1]
          · by_cases e3 : s = []
            · subst e3
              simp
            · by_cases e2 : s = ['.', '.']
              · subst e2
                cases acc <;> simp
              · simp [e1, e2, e3]
        rw [hstep]
        exact ih _
    exact key _ []
  · rfl

/-- C2 counterexample: the claim states that a path starting with two forward
slashes is not absolute under the Windows classifier, but the code's regex
accepts a separator followed by any non-backslash, so `"//a"` is absolute. -/
theorem C2_counterexample :
    arg_is_absolute ("//a".data) .Windows = true ∧
    winAbsClaimed ("//a".data) = false := by
  constructor <;> decide

/-- C2 (amended): `is_absolute(p, Windows)` holds iff `p` starts with a UNC
prefix, or a drive-letter prefix, or a separator followed by a
**non-backslash** character or the end of the string. -/
theorem C2_windows_classifier (p : List Char) :
    arg_is_absolute p .Windows = winAbsAmended p := by
  match p with
  | [] => rfl
  | [c] =>
    by_cases h : isPathSep c = true <;>
      simp [arg_is_absolute, winPreOrSlash?, winAbsAmended, h]
  | c :: d :: t =>
    show (winPreOrSlash? (c :: d :: t)).isSome = winAbsAmended (c :: d :: t)
    simp only [winPreOrSlash?, winAbsAmended]
    by_cases hc1 : c = '\\' <;> by_cases hd1 : d = '\\' <;>
      by_cases ha : isAsciiAlpha c = true <;> by_cases hd2 : d = ':' <;>
        by_cases hs : isPathSep c = true <;>
          simp_all +decide [isPathSep]

/-- C7: for every variant, `relative(from, to, variant)` panics exactly when
at least one argument is not absolute under that variant; in particular
`relative("not/absolute", "/x", Generic)` panics, and two absolute arguments
always produce a result. -/
theorem C7_relative_panic_iff :
    (∀ (v : PlatformPathVariant) (f t : List Char),
      arg_relative? f t v = none ↔
        ¬(arg_is_absolute f v = true ∧ arg_is_absolute t v = true)) ∧
    arg_relative? ("not/absolute".data) ("/x".data) .Default = none := by
  constructor
  · intro v f t
    cases v with
    | Default =>
      constructor
      · intro h hc
        obtain ⟨r, hr⟩ := common_relative_isSome hc.1 hc.2
        have : arg_relative? f t .Default = some r := hr
        rw [h] at this
        simp at this
      · intro hc
        show common_relative? f t = none
        unfold common_relative?
        rw [if_neg (by simpa [Bool.and_eq_true] using hc)]
    | Windows =>
      constructor
      · intro h hc
        have hf : (winPreOrSlash? f).isSome = true := hc.1
        have ht : (winPreOrSlash? t).isSome = true := hc.2
        obtain ⟨pf, hpf⟩ := Option.isSome_iff_exists.mp hf
        obtain ⟨pt, hpt⟩ := Option.isSome_iff_exists.mp ht
        rw [arg_relative?_windows_eq hpf hpt
          (by simp [arg_is_absolute, hf, ht])] at h
        by_cases hpre : pf ≠ pt
        · rw [if_pos hpre] at h
          simp at h
        · rw [if_neg hpre] at h
          obtain ⟨r, hr⟩ := common_relative_isSome
            (stripPreAddSep_sep_led f pf) (stripPreAddSep_sep_led t pf)
          rw [hr] at h
          simp at h
      · intro hc
        unfold arg_relative?
        rw [if_neg (by simpa [Bool.and_eq_true] using hc)]
  · decide

namespace FilePaths

theorem winPre?_joinSegs_none {segs : List (List Char)}
    (hclean : ∀ s ∈ segs, cleanSeg s)
    (hd : drivePatB (joinSegs segs) = false) :
    winPre? (joinSegs segs) = none := by
  cases segs with
  | nil => exact winPre?_nil
  | cons s rest =>
    have hs := hclean s (by simp)
    obtain ⟨c, cs, rfl⟩ : ∃ c cs, s = c :: cs := by
      cases s with
      | nil => exact absurd rfl hs.1
      | cons c cs => exact ⟨c, cs, rfl⟩
    have hcsep : isPathSep c = false := hs.2.2.2 c (by simp)
    have hcbs : c ≠ '\\' := by
      intro hc
      subst hc
      simp [isPathSep] at hcsep
    cases cs with
    | nil =>
      cases rest with
      | nil => exact winPre?_single c
      | cons u us =>
        rw [joinSegs_cons (by simp)]
        refine winPre?_none_of_conds _ (fun hp => hcbs hp.1) (fun hp => ?_)
        have := hp.2
        simp at this
    | cons c2 cs2 =>
      obtain ⟨t, ht⟩ : ∃ t, joinSegs ((c :: c2 :: cs2) :: rest) = c :: c2 :: t := by
        cases rest with
        | nil => exact ⟨cs2, rfl⟩
        | cons u us => exact ⟨cs2 ++ '/' :: joinSegs (u :: us),
            by rw [joinSegs_cons (by simp)]; rfl⟩
      rw [ht]
      refine winPre?_none_of_conds _ (fun hp => hcbs hp.1) (fun hp => ?_)
      rw [ht] at hd
      simp [drivePatB, hp.1, hp.2] at hd

theorem sep_led_of_abs_no_pre {q : List Char}
    (habs : (winPreOrSlash? q).isSome = true) (hn : winPre? q = none) :
    startsWithPathSeparator q = true := by
  match q with
  | [] => simp [winPreOrSlash?] at habs
  | [c] =>
    simp only [winPreOrSlash?] at habs
    by_cases h : isPathSep c = true
    · exact h
    · rw [if_neg h] at habs
      simp at habs
  | c :: d :: t =>
    simp only [winPreOrSlash?] at habs
    by_cases h1 : (c = '\\' && d = '\\') = true
    · exfalso
      obtain ⟨hc, hdd⟩ := by simpa [Bool.and_eq_true, decide_eq_true_eq] using h1
      subst hc
      subst hdd
      rw [winPre?_unc t] at hn
      simp at hn
    · rw [if_neg h1] at habs
      by_cases h2 : (isAsciiAlpha c && d = ':') = true
      · exfalso
        obtain ⟨hca, hdd⟩ := by simpa [Bool.and_eq_true, decide_eq_true_eq] using h2
        subst hdd
        rw [winPre?_drive t hca] at hn
        simp at hn
      · rw [if_neg h2] at habs
        by_cases h3 : (isPathSep c && d ≠ '\\') = true
        · obtain ⟨hs, -⟩ :=
            by simpa [Bool.and_eq_true, decide_eq_true_eq] using h3
          exact hs
        · rw [if_neg h3] at habs
          simp at habs

end FilePaths

/-- C6 counterexample: under the Windows variant `resolve_one` is not
idempotent: `"./C:y"` normalizes to `"C:y"`, which renormalizes to `"C:/y"`. -/
theorem C6_counterexample :
    arg_resolve_one (arg_resolve_one ("./C:y".data) .Windows) .Windows ≠
      arg_resolve_one ("./C:y".data) .Windows := by
  decide

/-- C6 (amended): `resolve_one` is idempotent for every path under the
generic variant, and under the Windows variant for every path that either
carries a Windows (drive/UNC) prefix itself or whose generic normalization
does not begin with a drive-letter pattern. -/
theorem C6_resolve_one_idem (v : PlatformPathVariant) (p : List Char)
    (h : v = .Default ∨ (winPre? p).isSome = true ∨
      drivePatB (common_resolve_one p) = false) :
    arg_resolve_one (arg_resolve_one p v) v = arg_resolve_one p v := by
  cases v with
  | Default =>
    rw [arg_resolve_one_default, arg_resolve_one_default]
    exact common_resolve_one_idem p
  | Windows =>
    by_cases hp : (winPre? p).isSome = true
    · obtain ⟨pre, hpre⟩ := Option.isSome_iff_exists.mp hp
      rw [arg_resolve_one_windows_pre hpre]
      rcases winPre?_eq_some hpre with ⟨rest, hpshape, hpre2⟩ | ⟨c, rest, hpshape, hca, hpre2⟩
      · subst hpre2
        rw [if_pos rfl]
        rw [arg_resolve_one_windows_pre (winPre?_unc _), if_pos rfl]
        simp only [List.drop_succ_cons, List.drop_zero]
        rw [wss_idem]
      · subst hpre2
        have hne : ([c, ':'] : List Char) ≠ ['\\', '\\'] := by
          intro he
          have : c = '\\' := by simpa using congrArg (fun l => l.headI) he
          exact isAsciiAlpha_ne_backslash hca this
        rw [if_neg hne]
        rw [show ([c, ':'] : List Char) ++ '/' ::
            resolve_one_without_starting_sep (p.drop 2) =
          c :: ':' :: '/' :: resolve_one_without_starting_sep (p.drop 2) from rfl]
        rw [arg_resolve_one_windows_pre (winPre?_drive _ hca), if_neg hne]
        simp only [List.drop_succ_cons, List.drop_zero]
        rw [wss_sep_cons _ (by simp [isPathSep]), wss_idem]
        rfl
    · have hpn : winPre? p = none := by
        cases hw : winPre? p with
        | none => rfl
        | some ppre => rw [hw] at hp; simp at hp
      rw [arg_resolve_one_windows_none hpn]
      have hd : drivePatB (common_resolve_one p) = false := by
        rcases h with h | h | h
        · simp at h
        · rw [hpn] at h; simp at h
        · exact h
      have hq : winPre? (common_resolve_one p) = none := by
        by_cases hsw : startsWithPathSeparator p = true
        · rw [common_resolve_one_sep_led hsw]
          exact winPre?_slash_cons _
        · rw [common_resolve_one_not_sep_led (by simpa using hsw)]
          refine winPre?_joinSegs_none (segsOf_clean p) ?_
          rw [common_resolve_one_not_sep_led (by simpa using hsw)] at hd
          exact hd
      rw [arg_resolve_one_windows_none hq, common_resolve_one_idem]

/-- C6 witness. -/
theorem C6_witness :
    arg_resolve_one (arg_resolve_one ("a/./b".data) .Default) .Default =
      arg_resolve_one ("a/./b".data) .Default :=
  C6_resolve_one_idem .Default ("a/./b".data) (Or.inl rfl)

/-- C4 counterexample: `"/x"` is absolute under Windows, yet
`resolve("C:/y", "/x", Windows)` keeps the drive prefix of the first path
instead of returning `resolve_one("/x")`. -/
theorem C4_counterexample :
    arg_is_absolute ("/x".data) .Windows = true ∧
    arg_resolve ("C:/y".data) ("/x".data) .Windows = ("C:/x".data) ∧
    arg_resolve_one ("/x".data) .Windows = ("/x".data) ∧
    ("C:/x".data : List Char) ≠ ("/x".data) := by
  refine ⟨by decide, by decide, by decide, by decide⟩

/-- C4 (amended): the override law `resolve(p, q) = resolve_one(q)` for
absolute `q` holds under the generic variant always, and under the Windows
variant whenever `q` itself carries a drive/UNC prefix or `p` carries none;
in the remaining case (`p` drive/UNC-prefixed, `q` merely separator-led)
the code reattaches `p`'s prefix instead. -/
theorem C4_override (v : PlatformPathVariant) (p q : List Char)
    (habs : arg_is_absolute q v = true)
    (h : v = .Default ∨ (winPre? q).isSome = true ∨ winPre? p = none) :
    arg_resolve p q v = arg_resolve_one q v := by
  cases v with
  | Default =>
    have hq : startsWithPathSeparator q = true := habs
    rw [show arg_resolve p q .Default = common_resolve p q from rfl,
      common_resolve_sep_led_right hq, arg_resolve_one_default]
  | Windows =>
    by_cases hq : (winPre? q).isSome = true
    · obtain ⟨pre, hpre⟩ := Option.isSome_iff_exists.mp hq
      rw [arg_resolve_win_pre2 hpre, arg_resolve_one_windows_pre hpre,
        replaceWinPre_some hpre, winPre?_length hpre,
        common_resolve_sep_led_right (by rfl),
        common_resolve_one_sep_led (by rfl),
        segsOf_sep_cons _ (by simp [isPathSep])]
      by_cases hdd : pre = ['\\', '\\']
      · rw [if_pos hdd, if_pos hdd]
        simp only [List.drop_succ_cons, List.drop_zero]
        rfl
      · rw [if_neg hdd, if_neg hdd]
        rfl
    · have hqn : winPre? q = none := by
        cases hw : winPre? q with
        | none => rfl
        | some qpre => rw [hw] at hq; simp at hq
      have hpn : winPre? p = none := by
        rcases h with h | h | h
        · simp at h
        · rw [hqn] at h; simp at h
        · exact h
      rw [arg_resolve_win_no_pre hpn hqn, arg_resolve_one_windows_none hqn,
        common_resolve_sep_led_right (sep_led_of_abs_no_pre habs hqn)]

/-- C4 witness. -/
theorem C4_witness :
    arg_resolve ("a".data) ("/x".data) .Default =
      arg_resolve_one ("/x".data) .Default :=
  C4_override .Default ("a".data) ("/x".data) (by decide) (Or.inl rfl)

namespace FilePaths

theorem common_resolve_combo_rel {A r : List Char}
    (h2 : startsWithPathSeparator r = false) (hne : r ≠ [])
    (hA : startsWithPathSeparator A = false) :
    common_resolve A r = resolve_one_without_starting_sep
      (resolve_one_without_starting_sep A ++ '/' :: r) := by
  unfold common_resolve
  rw [h2, hA]
  simp [hne]

/-! ### Canonical shapes of resolver outputs -/

theorem common_resolve_canon (p q : List Char) :
    ∃ segs, CleanSegs segs ∧
      (common_resolve p q = joinSegs segs ∨
       common_resolve p q = '/' :: joinSegs segs) := by
  by_cases h2 : startsWithPathSeparator q = true
  · rw [common_resolve_sep_led_right h2, common_resolve_one_sep_led h2]
    exact ⟨segsOf q, segsOf_clean q, Or.inr rfl⟩
  · by_cases hnil : q = []
    · subst hnil
      rw [common_resolve_nil_right]
      by_cases hp : startsWithPathSeparator p = true
      · rw [common_resolve_one_sep_led hp]
        exact ⟨segsOf p, segsOf_clean p, Or.inr rfl⟩
      · rw [common_resolve_one_not_sep_led (by simpa using hp)]
        exact ⟨segsOf p, segsOf_clean p, Or.inl rfl⟩
    · by_cases hp : startsWithPathSeparator p = true
      · rw [common_resolve_combo (by simpa using h2) hnil hp]
        exact ⟨segsOf (resolve_one_without_starting_sep p ++ '/' :: q),
          segsOf_clean _, Or.inr (by rw [wss_eq_joinSegs])⟩
      · rw [common_resolve_combo_rel (by simpa using h2) hnil (by simpa using hp)]
        exact ⟨segsOf (resolve_one_without_starting_sep p ++ '/' :: q),
          segsOf_clean _, Or.inl (by rw [wss_eq_joinSegs])⟩

theorem common_resolve_slash_led (A q : List Char)
    (hA : startsWithPathSeparator A = true) :
    ∃ segs, CleanSegs segs ∧ common_resolve A q = '/' :: joinSegs segs := by
  by_cases h2 : startsWithPathSeparator q = true
  · rw [common_resolve_sep_led_right h2, common_resolve_one_sep_led h2]
    exact ⟨segsOf q, segsOf_clean q, rfl⟩
  · by_cases hnil : q = []
    · subst hnil
      rw [common_resolve_nil_right, common_resolve_one_sep_led hA]
      exact ⟨segsOf A, segsOf_clean A, rfl⟩
    · rw [common_resolve_combo (by simpa using h2) hnil hA]
      exact ⟨segsOf (resolve_one_without_starting_sep A ++ '/' :: q),
        segsOf_clean _, by rw [wss_eq_joinSegs]⟩

theorem arg_resolve_canon (v : PlatformPathVariant) (p q : List Char) :
    Canon v (arg_resolve p q v) := by
  cases v with
  | Default =>
    obtain ⟨segs, hc, hor⟩ := common_resolve_canon p q
    exact Or.inl ⟨segs, hc, hor⟩
  | Windows =>
    by_cases hq : (winPre? q).isSome = true
    · obtain ⟨pre, hpre⟩ := Option.isSome_iff_exists.mp hq
      rw [arg_resolve_win_pre2 hpre]
      have hr : common_resolve (replaceWinPre p) (replaceWinPre q) =
          '/' :: joinSegs (segsOf (q.drop pre.length)) := by
        rw [replaceWinPre_some hpre, common_resolve_sep_led_right (by rfl),
          common_resolve_one_sep_led (by rfl),
          segsOf_sep_cons _ (by simp [isPathSep])]
      rw [hr]
      rcases winPre?_eq_some hpre with ⟨rest, hshape, hpre2⟩ | ⟨c, rest, hshape, hca, hpre2⟩
      · subst hpre2
        rw [if_pos rfl]
        exact Or.inr ⟨rfl, segsOf (q.drop 2), segsOf_clean _, Or.inr rfl⟩
      · subst hpre2
        rw [if_neg (fun he => isAsciiAlpha_ne_backslash hca
          (by simpa using congrArg (fun l => l.headI) he))]
        exact Or.inr ⟨rfl, segsOf (q.drop 2), segsOf_clean _, Or.inl ⟨c, hca, rfl⟩⟩
    · have hqn : winPre? q = none := by
        cases hw : winPre? q with
        | none => rfl
        | some qpre => rw [hw] at hq; simp at hq
      by_cases hp : (winPre? p).isSome = true
      · obtain ⟨pre, hpre⟩ := Option.isSome_iff_exists.mp hp
        rw [arg_resolve_win_pre1 hpre hqn, replaceWinPre_none hqn,
          replaceWinPre_some hpre]
        obtain ⟨segs, hcl, hr⟩ :=
          common_resolve_slash_led ('/' :: p.drop pre.length) q (by rfl)
        rw [hr]
        rcases winPre?_eq_some hpre with ⟨rest, hshape, hpre2⟩ | ⟨c, rest, hshape, hca, hpre2⟩
        · subst hpre2
          rw [if_pos rfl]
          exact Or.inr ⟨rfl, segs, hcl, Or.inr rfl⟩
        · subst hpre2
          rw [if_neg (fun he => isAsciiAlpha_ne_backslash hca
            (by simpa using congrArg (fun l => l.headI) he))]
          exact Or.inr ⟨rfl, segs, hcl, Or.inl ⟨c, hca, rfl⟩⟩
      · have hpn : winPre? p = none := by
          cases hw : winPre? p with
          | none => rfl
          | some ppre => rw [hw] at hp; simp at hp
        rw [arg_resolve_win_no_pre hpn hqn]
        obtain ⟨segs, hc, hor⟩ := common_resolve_canon p q
        exact Or.inl ⟨segs, hc, hor⟩

theorem foldl_arg_resolve_canon (v : PlatformPathVariant) :
    ∀ (rest : List (List Char)) (init : List Char), Canon v init →
    Canon v (rest.foldl (fun a b => arg_resolve a b v) init) := by
  intro rest
  induction rest with
  | nil => intro init h; exact h
  | cons b bs ih =>
    intro init _
    rw [List.foldl_cons]
    exact ih _ (arg_resolve_canon v init b)

theorem arg_resolve_n_canon (v : PlatformPathVariant) (ps : List (List Char)) :
    Canon v (arg_resolve_n ps v) := by
  match ps with
  | [] => exact Or.inl ⟨[], by simp [CleanSegs], Or.inl rfl⟩
  | [p] => exact arg_resolve_canon v p []
  | p1 :: p2 :: rest =>
    exact foldl_arg_resolve_canon v rest _ (arg_resolve_canon v p1 p2)

theorem noBackslash_joinSegs {segs : List (List Char)} (h : CleanSegs segs) :
    noBackslash (joinSegs segs) = true := by
  rw [noBackslash, List.all_eq_true]
  intro c hc
  rcases mem_joinSegs hc with rfl | ⟨s, hs, hcs⟩
  · decide
  · have := (h s hs).2.2.2 c hcs
    simp only [decide_eq_true_eq]
    intro he
    subst he
    simp [isPathSep] at this

theorem canon_noBackslash {v : PlatformPathVariant} {s : List Char} (h : Canon v s) :
    noBackslash s = true ∨
      (v = .Windows ∧ ∃ t, s = '\\' :: '\\' :: t ∧ noBackslash t = true) := by
  rcases h with ⟨segs, hc, hor | hor⟩ | ⟨hw, segs, hc, ⟨c, hca, hshape⟩ | hshape⟩
  · exact Or.inl (hor ▸ noBackslash_joinSegs hc)
  · refine Or.inl ?_
    rw [hor]
    have := noBackslash_joinSegs hc
    simp [noBackslash] at this ⊢
    exact this
  · refine Or.inl ?_
    rw [hshape]
    have h1 := noBackslash_joinSegs hc
    have h2 := isAsciiAlpha_ne_backslash hca
    simp [noBackslash] at h1 ⊢
    exact ⟨h2, h1⟩
  · exact Or.inr ⟨hw, joinSegs segs, hshape, noBackslash_joinSegs hc⟩

end FilePaths

/-- C10: in every variant and for all inputs, the strings returned by
`resolve`, `resolve_n` and `resolve_one` contain no backslash, except that
under the Windows variant a UNC-governed result starts with exactly the
two-backslash UNC marker followed by a backslash-free remainder. -/
theorem C10_separator_invariant (v : PlatformPathVariant)
    (p1 p2 p : List Char) (ps : List (List Char)) :
    (noBackslash (arg_resolve p1 p2 v) = true ∨
      (v = .Windows ∧ ∃ t, arg_resolve p1 p2 v = '\\' :: '\\' :: t ∧
        noBackslash t = true)) ∧
    (noBackslash (arg_resolve_n ps v) = true ∨
      (v = .Windows ∧ ∃ t, arg_resolve_n ps v = '\\' :: '\\' :: t ∧
        noBackslash t = true)) ∧
    (noBackslash (arg_resolve_one p v) = true ∨
      (v = .Windows ∧ ∃ t, arg_resolve_one p v = '\\' :: '\\' :: t ∧
        noBackslash t = true)) :=
  ⟨canon_noBackslash (arg_resolve_canon v p1 p2),
   canon_noBackslash (arg_resolve_n_canon v ps),
   canon_noBackslash (arg_resolve_n_canon v [p])⟩

namespace FilePaths

theorem cleanSegs_weaken {segs : List (List Char)} (h : CleanSegs segs) :
    ∀ s ∈ segs, s ≠ [] ∧ ∀ c ∈ s, isPathSep c = false :=
  fun s hs => ⟨(h s hs).1, (h s hs).2.2.2⟩

theorem canon_fixed {v : PlatformPathVariant} {s : List Char}
    (hc : Canon v s) (hbad : ¬(v = .Windows ∧ badDriveB s = true)) :
    arg_resolve_one s v = s := by
  rcases hc with ⟨segs, hcl, hor | hor⟩ | ⟨hw, segs, hcl, hdr | hunc⟩
  · -- s = joinSegs segs
    subst hor
    cases v with
    | Default =>
      rw [arg_resolve_one_default,
        common_resolve_one_not_sep_led (joinSegs_not_sep_led (cleanSegs_weaken hcl)),
        segsOf_joinSegs hcl]
    | Windows =>
      by_cases hd : drivePatB (joinSegs segs) = true
      · have hbd : badDriveB (joinSegs segs) = false := by
          by_contra hb
          exact hbad ⟨rfl, by simpa using hb⟩
        cases segs with
        | nil => simp [joinSegs, drivePatB] at hd
        | cons s0 rs =>
          obtain ⟨c, cs, rfl⟩ : ∃ c cs, s0 = c :: cs := by
            cases s0 with
            | nil => exact absurd rfl (hcl _ (by simp)).1
            | cons c cs => exact ⟨c, cs, rfl⟩
          have hcsep : ∀ x ∈ c :: cs, isPathSep x = false :=
            (hcl _ (by simp)).2.2.2
          cases cs with
          | nil =>
            cases rs with
            | nil => simp [joinSegs, drivePatB] at hd
            | cons u us =>
              rw [joinSegs_cons (by simp)] at hd
              simp +decide [drivePatB] at hd
          | cons c2 cs2 =>
            have hT : ∃ T, joinSegs ((c :: c2 :: cs2) :: rs) = c :: c2 :: T ∧
                ((T = cs2 ∧ rs = []) ∨
                 (∃ u us, rs = u :: us ∧ T = cs2 ++ '/' :: joinSegs (u :: us))) := by
              cases rs with
              | nil => exact ⟨cs2, rfl, Or.inl ⟨rfl, rfl⟩⟩
              | cons u us =>
                refine ⟨cs2 ++ '/' :: joinSegs (u :: us), ?_, Or.inr ⟨u, us, rfl, rfl⟩⟩
                rw [joinSegs_cons (by simp)]
                rfl
            obtain ⟨T, hTeq, hTcases⟩ := hT
            rw [hTeq] at hd hbd ⊢
            have hdc : isAsciiAlpha c = true ∧ c2 = ':' := by
              simpa [drivePatB, Bool.and_eq_true, decide_eq_true_eq] using hd
            obtain ⟨hca, rfl⟩ := hdc
            have hThead : T.head? = some '/' := by
              by_contra hb
              simp [badDriveB, hca, hb] at hbd
            rcases hTcases with ⟨hT1, -⟩ | ⟨u, us, hrs, hT2⟩
            · subst hT1
              exfalso
              cases T with
              | nil => simp at hThead
              | cons c3 cs3 =>
                have hc3 : isPathSep c3 = false := hcsep c3 (by simp)
                have he3 : c3 = '/' := by simpa using hThead
                rw [he3] at hc3
                simp [isPathSep] at hc3
            · subst hT2
              cases cs2 with
              | cons c3 cs3 =>
                exfalso
                have hc3 : isPathSep c3 = false := hcsep c3 (by simp)
                have he3 : c3 = '/' := by simpa using hThead
                rw [he3] at hc3
                simp [isPathSep] at hc3
              | nil =>
                subst hrs
                rw [show ([] : List Char) ++ '/' :: joinSegs (u :: us) =
                  '/' :: joinSegs (u :: us) from rfl]
                rw [arg_resolve_one_windows_pre (winPre?_drive _ hca),
                  if_neg (fun he => isAsciiAlpha_ne_backslash hca
                    (by simpa using congrArg (fun l => l.headI) he))]
                simp only [List.drop_succ_cons, List.drop_zero]
                rw [wss_sep_cons _ (by simp [isPathSep]),
                  wss_joinSegs_clean (fun x hx => hcl x (by simp [hx]))]
                rfl
      · rw [arg_resolve_one_windows_none
            (winPre?_joinSegs_none hcl (by simpa using hd)),
          common_resolve_one_not_sep_led
            (joinSegs_not_sep_led (cleanSegs_weaken hcl)),
          segsOf_joinSegs hcl]
  · -- s = '/' :: joinSegs segs
    subst hor
    have hx : arg_resolve_one ('/' :: joinSegs segs) v =
        common_resolve_one ('/' :: joinSegs segs) := by
      cases v with
      | Default => exact arg_resolve_one_default _
      | Windows => exact arg_resolve_one_windows_none (winPre?_slash_cons _)
    rw [hx, common_resolve_one_sep_led (by rfl),
      segsOf_sep_cons _ (by simp [isPathSep]), segsOf_joinSegs hcl]
  · obtain ⟨c, hca, hshape⟩ := hdr
    subst hw
    subst hshape
    rw [arg_resolve_one_windows_pre (winPre?_drive _ hca),
      if_neg (fun he => isAsciiAlpha_ne_backslash hca
        (by simpa using congrArg (fun l => l.headI) he))]
    simp only [List.drop_succ_cons, List.drop_zero]
    rw [wss_sep_cons _ (by simp [isPathSep]), wss_joinSegs_clean hcl]
    rfl
  · subst hw
    subst hunc
    rw [arg_resolve_one_windows_pre (winPre?_unc _), if_pos rfl]
    simp only [List.drop_succ_cons, List.drop_zero]
    rw [wss_joinSegs_clean hcl]

theorem reachable_canon {P : Path} (h : Reachable P) : Canon P.v P.s := by
  induction h with
  | new p v => exact arg_resolve_n_canon v [p]
  | new_common p => exact arg_resolve_n_canon .Default [p]
  | new_native native p => exact arg_resolve_n_canon native [p]
  | from_n ps v => exact arg_resolve_n_canon v ps
  | from_n_common ps => exact arg_resolve_n_canon .Default ps
  | from_n_native native ps => exact arg_resolve_n_canon native ps
  | resolve P p2 hP ih => exact arg_resolve_canon P.v P.s p2
  | resolve_n P ps hP ih => exact arg_resolve_canon P.v P.s _

end FilePaths

/-- C8 counterexample: `Path::new("./C:y", Windows)` stores `"C:y"`, and
renormalizing that stored string under the stored variant yields `"C:/y"`,
so the stored string is not a fixed point of the Resolver. -/
theorem C8_counterexample :
    (Path.new ("./C:y".data) .Windows).s = ("C:y".data) ∧
    arg_resolve_one ((Path.new ("./C:y".data) .Windows).s) .Windows ≠
      (Path.new ("./C:y".data) .Windows).s := by
  refine ⟨by decide, by decide⟩

/-- C8 (amended): every `Path` produced by the constructors or the
`resolve`/`resolve_n` methods stores a canonical Resolver output, and
renormalizing the stored string under the stored variant is the identity,
except when the variant is Windows and the stored string begins with a
drive-letter pattern not followed by a forward slash (e.g. the `"C:y"`
stored by `Path::new("./C:y", Windows)`). -/
theorem C8_stored_normalized (P : Path) (h : Reachable P)
    (hbad : ¬(P.v = .Windows ∧ badDriveB P.s = true)) :
    arg_resolve_one P.s P.v = P.s :=
  canon_fixed (reachable_canon h) hbad

/-- C8 witness. -/
theorem C8_witness :
    arg_resolve_one ((Path.new ("/a/b".data) .Windows).s) ((Path.new ("/a/b".data) .Windows).v) =
      (Path.new ("/a/b".data) .Windows).s :=
  C8_stored_normalized (Path.new ("/a/b".data) .Windows)
    (Reachable.new ("/a/b".data) .Windows) (by decide)

namespace FilePaths

theorem winPreOrSlash?_of_winPre? {p pre : List Char} (h : winPre? p = some pre) :
    winPreOrSlash? p = some pre := by
  rcases winPre?_eq_some h with ⟨rest, rfl, rfl⟩ | ⟨c, rest, rfl, hca, rfl⟩
  · simp +decide [winPreOrSlash?]
  · simp +decide [winPreOrSlash?, hca]

theorem segsOf_stripPre (p pre : List Char) :
    segsOf (stripPreAddSep p pre) = segsOf (p.drop pre.length) := by
  unfold stripPreAddSep
  by_cases hsw : startsWithPathSeparator (p.drop pre.length) = true
  · rw [if_pos hsw]
  · rw [if_neg hsw, segsOf_sep_cons _ (by simp [isPathSep])]

end FilePaths

/-- C3 counterexample: three pairs of absolute inputs sharing a §3 prefix on
which `resolve(a, relative(a, b))` differs from `resolve_one(b)` — a
whitespace-led segment trimmed by `relative`, a Windows pair of
leading-separator paths whose regex matches coincide (`"/."`), and a
relative result that itself starts with a drive-letter pattern. -/
theorem C3_counterexample :
    (arg_is_absolute ("/".data) .Default = true ∧
     arg_is_absolute ("/ a".data) .Default = true ∧
     preClass ("/".data) .Default = preClass ("/ a".data) .Default ∧
     arg_relative? ("/".data) ("/ a".data) .Default = some ("a".data) ∧
     arg_resolve ("/".data) ("a".data) .Default ≠
       arg_resolve_one ("/ a".data) .Default) ∧
    (arg_is_absolute ("/./x".data) .Windows = true ∧
     arg_is_absolute ("/.y".data) .Windows = true ∧
     preClass ("/./x".data) .Windows = preClass ("/.y".data) .Windows ∧
     arg_relative? ("/./x".data) ("/.y".data) .Windows = some ("../y".data) ∧
     arg_resolve ("/./x".data) ("../y".data) .Windows ≠
       arg_resolve_one ("/.y".data) .Windows) ∧
    (arg_is_absolute ("D:/".data) .Windows = true ∧
     arg_is_absolute ("D:/C:y".data) .Windows = true ∧
     preClass ("D:/".data) .Windows = preClass ("D:/C:y".data) .Windows ∧
     arg_relative? ("D:/".data) ("D:/C:y".data) .Windows = some ("C:y".data) ∧
     arg_resolve ("D:/".data) ("C:y".data) .Windows ≠
       arg_resolve_one ("D:/C:y".data) .Windows) := by
  refine ⟨⟨by decide, by decide, by decide, by decide, by decide⟩,
    ⟨by decide, by decide, by decide, by decide, by decide⟩,
    ⟨by decide, by decide, by decide, by decide, by decide⟩⟩

/-- C3 (amended): the relative round-trip
`resolve(a, relative(a, b)) = resolve_one(b)` holds for the Generic variant
for all absolute `a`, `b`, and for the Windows variant for all `a`, `b`
sharing the same drive-letter or UNC prefix, provided no segment of the
(stripped) normalized `to` path begins with whitespace (which `relative`
would trim away) or — under Windows — with a drive-letter pattern (which
`resolve` would treat as a new prefix). -/
theorem C3_relative_roundtrip (v : PlatformPathVariant) (a b : List Char)
    (hpre : (v = .Default ∧ startsWithPathSeparator a = true ∧
              startsWithPathSeparator b = true) ∨
            (v = .Windows ∧ ∃ pre, winPre? a = some pre ∧ winPre? b = some pre))
    (hseg : ∀ s ∈ segsOf (strippedOf b v),
      headNotWs s = true ∧ (v = .Windows → drivePatB s = false)) :
    ∃ r, arg_relative? a b v = some r ∧ arg_resolve a r v = arg_resolve_one b v := by
  rcases hpre with ⟨hv, ha, hb⟩ | ⟨hv, pre, hpa, hpb⟩
  · subst hv
    have hws : ∀ s ∈ segsOf b, headNotWs s = true := fun s hs => (hseg s hs).1
    refine ⟨relVal (segsOf a) (segsOf b), common_relative_eq ha hb hws, ?_⟩
    rw [show arg_resolve a (relVal (segsOf a) (segsOf b)) .Default =
        common_resolve a (relVal (segsOf a) (segsOf b)) from rfl,
      common_resolve_relVal ha rfl (segsOf_clean b),
      arg_resolve_one_default, common_resolve_one_sep_led hb]
  · subst hv
    have hstr : strippedOf b .Windows = stripPreAddSep b pre := by
      simp [strippedOf, winStrip, hpb]
    rw [hstr] at hseg
    have hoa := winPreOrSlash?_of_winPre? hpa
    have hob := winPreOrSlash?_of_winPre? hpb
    have habs : (arg_is_absolute a .Windows && arg_is_absolute b .Windows) = true := by
      simp [arg_is_absolute, hoa, hob]
    have hws : ∀ s ∈ segsOf (stripPreAddSep b pre), headNotWs s = true :=
      fun s hs => (hseg s hs).1
    have hdr : ∀ s ∈ segsOf (stripPreAddSep b pre), drivePatB s = false :=
      fun s hs => (hseg s hs).2 rfl
    have hrel : common_relative? (stripPreAddSep a pre) (stripPreAddSep b pre) =
        some (relVal (segsOf (stripPreAddSep a pre)) (segsOf (stripPreAddSep b pre))) :=
      common_relative_eq (stripPreAddSep_sep_led a pre) (stripPreAddSep_sep_led b pre) hws
    refine ⟨relVal (segsOf (stripPreAddSep a pre)) (segsOf (stripPreAddSep b pre)),
      ?_, ?_⟩
    · rw [arg_relative?_windows_eq hoa hob habs, if_neg (fun h => h rfl)]
      exact hrel
    · have hrnone : winPre? (relVal (segsOf (stripPreAddSep a pre))
          (segsOf (stripPreAddSep b pre))) = none :=
        winPre?_relVal (segsOf_clean _) hdr
      rw [arg_resolve_win_pre1 hpa hrnone, replaceWinPre_none hrnone,
        replaceWinPre_some hpa]
      have hres : common_resolve ('/' :: a.drop pre.length)
          (relVal (segsOf (stripPreAddSep a pre)) (segsOf (stripPreAddSep b pre))) =
          '/' :: joinSegs (segsOf (stripPreAddSep b pre)) := by
        refine common_resolve_relVal (by rfl) ?_ (segsOf_clean _)
        rw [segsOf_sep_cons _ (by simp [isPathSep]), segsOf_stripPre]
      rw [hres, arg_resolve_one_windows_pre hpb]
      have hb2 : segsOf (stripPreAddSep b pre) = segsOf (b.drop 2) := by
        rw [segsOf_stripPre, winPre?_length hpb]
      rcases winPre?_eq_some hpa with ⟨rest, hshape, hpre2⟩ | ⟨c, rest, hshape, hca, hpre2⟩
      · subst hpre2
        rw [if_pos rfl, if_pos rfl]
        simp only [List.drop_succ_cons, List.drop_zero]
        rw [wss_eq_joinSegs, hb2]
      · subst hpre2
        have hne : ([c, ':'] : List Char) ≠ ['\\', '\\'] := fun he =>
          isAsciiAlpha_ne_backslash hca (by simpa using congrArg (fun l => l.headI) he)
        rw [if_neg hne, if_neg hne]
        rw [wss_eq_joinSegs, hb2]

/-- C3 witness. -/
theorem C3_witness :
    ∃ r, arg_relative? ("C:/a/b".data) ("C:/c".data) .Windows = some r ∧
      arg_resolve ("C:/a/b".data) r .Windows =
        arg_resolve_one ("C:/c".data) .Windows :=
  C3_relative_roundtrip .Windows ("C:/a/b".data) ("C:/c".data)
    (Or.inr ⟨rfl, ['C', ':'], by decide, by decide⟩) (by decide)

/-- C1 counterexample: `"/a"` and `"/b"` are both absolute with the same §3
prefix (`LeadingSeparator`), yet the code compares the full regex matches
(`"/a"` vs `"/b"`), finds them different, and returns `resolve_one("/b")`
instead of the generic relative `"../b"` of the stripped forms. -/
theorem C1_counterexample :
    arg_is_absolute ("/a".data) .Windows = true ∧
    arg_is_absolute ("/b".data) .Windows = true ∧
    preClass ("/a".data) .Windows = PreClass.leadingSep ∧
    preClass ("/b".data) .Windows = PreClass.leadingSep ∧
    arg_relative? ("/a".data) ("/b".data) .Windows = some ("/b".data) ∧
    common_relative? ("/a".data) ("/b".data) = some ("../b".data) ∧
    ("/b".data : List Char) ≠ ("../b".data) := by
  refine ⟨by decide, by decide, by decide, by decide, by decide, by decide, by decide⟩

/-- C1 (amended): for Windows-absolute inputs, `relative` compares the full
matched texts of the prefix-or-slash pattern (for a separator-led path the
separator together with the following non-backslash character, if any);
when the matches differ it returns `resolve_one(to)`, and when they agree
it strips the match from both inputs (re-adding a leading separator when
needed) and returns the Generic relative algorithm on the stripped forms,
which always succeeds. -/
theorem C1_windows_relative (f t : List Char)
    (ha : arg_is_absolute f .Windows = true)
    (hb : arg_is_absolute t .Windows = true) :
    ∃ pf pt, winPreOrSlash? f = some pf ∧ winPreOrSlash? t = some pt ∧
      (pf ≠ pt → arg_relative? f t .Windows = some (arg_resolve_one t .Windows)) ∧
      (pf = pt → ∃ r,
        common_relative? (stripPreAddSep f pf) (stripPreAddSep t pf) = some r ∧
        arg_relative? f t .Windows = some r) := by
  obtain ⟨pf, hpf⟩ := Option.isSome_iff_exists.mp ha
  obtain ⟨pt, hpt⟩ := Option.isSome_iff_exists.mp hb
  have habs : (arg_is_absolute f .Windows && arg_is_absolute t .Windows) = true := by
    simp [ha, hb]
  refine ⟨pf, pt, hpf, hpt, ?_, ?_⟩
  · intro hne
    rw [arg_relative?_windows_eq hpf hpt habs, if_pos hne]
  · intro heq
    subst heq
    obtain ⟨r, hr⟩ := common_relative_isSome
      (stripPreAddSep_sep_led f pf) (stripPreAddSep_sep_led t pf)
    refine ⟨r, hr, ?_⟩
    rw [arg_relative?_windows_eq hpf hpt habs, if_neg (fun h => h rfl)]
    exact hr

/-- C1 witness. -/
theorem C1_witness :
    ∃ pf pt, winPreOrSlash? ("C:/".data) = some pf ∧
      winPreOrSlash? ("\\\\foo".data) = some pt ∧
      (pf ≠ pt → arg_relative? ("C:/".data) ("\\\\foo".data) .Windows =
        some (arg_resolve_one ("\\\\foo".data) .Windows)) ∧
      (pf = pt → ∃ r,
        common_relative? (stripPreAddSep ("C:/".data) pf)
          (stripPreAddSep ("\\\\foo".data) pf) = some r ∧
        arg_relative? ("C:/".data) ("\\\\foo".data) .Windows = some r) :=
  C1_windows_relative ("C:/".data) ("\\\\foo".data) (by decide) (by decide)

namespace FilePaths

/-! ### The leftmost-match semantics of `findRun` -/

theorem findRun_none {p : List Char} (h : findRun p = none) :
    ∀ j, isExtRun (p.drop j) = false := by
  induction p with
  | nil =>
    intro j
    simp [List.drop_nil]
    exact (by decide : isExtRun [] = false)
  | cons c rest ih =>
    intro j
    unfold findRun at h
    by_cases he : isExtRun (c :: rest) = true
    · rw [if_pos he] at h
      simp at h
    · rw [if_neg he] at h
      have hrest : findRun rest = none := by
        cases hr : findRun rest with
        | none => rfl
        | some i => rw [hr] at h; simp at h
      cases j with
      | zero => simpa using he
      | succ j => exact ih hrest j

theorem findRun_some {p : List Char} :
    ∀ {i : Nat}, findRun p = some i →
    isExtRun (p.drop i) = true ∧ i ≤ p.length ∧
      ∀ j, isExtRun (p.drop j) = true → i ≤ j := by
  induction p with
  | nil =>
    intro i h
    unfold findRun at h
    rw [if_neg (by decide)] at h
    simp at h
  | cons c rest ih =>
    intro i h
    unfold findRun at h
    by_cases he : isExtRun (c :: rest) = true
    · rw [if_pos he] at h
      have hi : i = 0 := by simpa using h.symm
      subst hi
      exact ⟨he, by simp, fun j _ => Nat.zero_le j⟩
    · rw [if_neg he] at h
      obtain ⟨i2, hi2, hplus⟩ : ∃ i2, findRun rest = some i2 ∧ i = i2 + 1 := by
        cases hr : findRun rest with
        | none => rw [hr] at h; simp at h
        | some i2 =>
          rw [hr] at h
          exact ⟨i2, rfl, by simpa using h.symm⟩
      obtain ⟨hrun, hle, hmin⟩ := ih hi2
      subst hplus
      refine ⟨by simpa using hrun, by simpa using hle, ?_⟩
      intro j hj
      cases j with
      | zero => exact absurd (by simpa using hj) he
      | succ j => exact Nat.succ_le_succ (hmin j (by simpa using hj))

end FilePaths

/-- C9: `change_extension(path, ext)` dot-prefixes `ext` when needed and
replaces the entire trailing run matching `(\.[^\.]+)+$` — the longest such
suffix, starting at the leftmost position `i` from which the pattern runs to
the end — with the dotted extension, appending when no such run exists; in
particular `"a.x.y"` with `".z"` yields `"a.z"`. -/
theorem C9_change_extension :
    (∀ path ext : List Char, ∃ i, i ≤ path.length ∧
      change_extension path ext = path.take i ++
        (if ext.head? = some '.' then ext else '.' :: ext) ∧
      (isExtRun (path.drop i) = true ∨ path.drop i = []) ∧
      (∀ j, isExtRun (path.drop j) = true → i ≤ j)) ∧
    change_extension ("a.x.y".data) (".z".data) = ("a.z".data) := by
  constructor
  · intro path ext
    unfold change_extension
    cases hfr : findRun path with
    | none =>
      refine ⟨path.length, Nat.le_refl _, ?_, ?_, ?_⟩
      · rw [List.take_length]
        rfl
      · right
        simp
      · intro j hj
        rw [findRun_none hfr j] at hj
        simp at hj
    | some i =>
      obtain ⟨hrun, hle, hmin⟩ := findRun_some hfr
      exact ⟨i, hle, rfl, Or.inl hrun, hmin⟩
  · decide
